import Mathlib

/-!
# Verification of the PushBot deployment dispatcher

A shallow embedding of the PushBot repository (`pushbot/webhook.py`,
`pushbot/deployer.py`, `pushbot/main.py`, `pushbot/models.py`) together with
proofs about the embedded operations.

Modelling conventions:

* Python strings are modelled as `List Char` where the claims inspect their
  characters, and as Lean `String` where only whole-value equality matters
  (database text columns).
* `datetime` values are modelled as `Nat` microsecond counts; the minimal
  `datetime` (`datetime.min`, used as the fallback for unparseable log
  prefixes) is the minimal `Nat`, `0`.  The calendar rendering
  `"%Y-%m-%d %H:%M:%S"` of a timestamp is order-isomorphic to the rendered
  second count, so the formatted prefix is modelled as the decimal rendering
  of `ts / 1000000` and the replay's regex parse as reading that bracketed
  decimal back.
* The SQLAlchemy session/commit machinery (`pushbot/database.py`, a file the
  repository references but whose code does not accompany the other sources)
  is modelled as direct state passing; `query(...).filter(...).first()` is
  the first match in table (insertion) order, and
  `order_by(started_at.asc()).first()` is the head of a stable sort by
  `started_at`.
-/

namespace Pushbot

/-! ## Python character / string primitives -/

/-- The characters for which Python's `str.strip()` (no argument) removes an
occurrence: the Unicode whitespace set used by `str.split`/`str.strip`.
From the guard `not line.strip()` at `deployer.py` line 33. -/
def pyIsSpace (c : Char) : Bool :=
  c = ' ' || c = '\t' || c = '\n' || c = '\r' || c = '\x0b' || c = '\x0c' ||
  c = '\x1c' || c = '\x1d' || c = '\x1e' || c = '\x1f' || c = '\x85' ||
  c = '\xa0' || c = ' ' || (' ' ≤ c && c ≤ ' ') ||
  c = ' ' || c = ' ' || c = ' ' || c = ' ' || c = '　'

/-- Decimal digit characters `'0'..'9'` (used by the timestamp rendering). -/
def digitChar (n : Nat) : Char :=
  match n with
  | 0 => '0' | 1 => '1' | 2 => '2' | 3 => '3' | 4 => '4'
  | 5 => '5' | 6 => '6' | 7 => '7' | 8 => '8' | _ => '9'

/-- Fuel-driven rendering of a natural number in decimal, most significant
digit first.  `fuel ≥ n` always suffices. -/
def natDigitsGo : Nat → Nat → List Char
  | 0, n => [digitChar (n % 10)]
  | fuel + 1, n =>
    if n < 10 then [digitChar n]
    else natDigitsGo fuel (n / 10) ++ [digitChar (n % 10)]

/-- Decimal rendering of a natural number. -/
def natDigits (n : Nat) : List Char := natDigitsGo n n

/-- Reading a digit character back. -/
def digitVal (c : Char) : Nat := c.toNat - 48

/-- Value of a most-significant-first digit list. -/
def digitsToNat (ds : List Char) : Nat := ds.foldl (fun a c => a * 10 + digitVal c) 0

/-- Python `text.split("\n")`: split a character list at every newline;
a trailing newline yields a trailing empty piece.  From
`deployment.stdout.split("\n")` at `main.py` lines 369 and 376. -/
def splitNl : List Char → List (List Char)
  | [] => [[]]
  | c :: rest =>
    if c = '\n' then [] :: splitNl rest
    else
      match splitNl rest with
      | [] => [[c]]
      | p :: ps => (c :: p) :: ps

/-- Left-to-right, non-overlapping deletion of every occurrence of `pat`,
with explicit fuel (`fuel ≥ l.length` suffices when `pat ≠ []`).  This is
Python's `l.replace(pat, "")`. -/
def pyRemoveGo (pat : List Char) : Nat → List Char → List Char
  | 0, l => l
  | _ + 1, [] => []
  | fuel + 1, c :: rest =>
    if pat.isPrefixOf (c :: rest) then pyRemoveGo pat fuel (List.drop pat.length (c :: rest))
    else c :: pyRemoveGo pat fuel rest

/-- Python `l.replace(pat, "")` for a non-empty `pat`: delete every
occurrence of `pat`, scanning left to right.  From
`ref.replace("refs/heads/", "")` at `webhook.py` line 67. -/
def pyRemoveAll (pat l : List Char) : List Char := pyRemoveGo pat l.length l

/-- Whether `pat` occurs as a contiguous segment of `l`. -/
def hasOcc (pat : List Char) : List Char → Bool
  | [] => pat.isEmpty
  | c :: rest => pat.isPrefixOf (c :: rest) || hasOcc pat rest

/-! ## Webhook interpreter (`pushbot/webhook.py`) -/

/-- The literal prefix `"refs/heads/"` tested at `webhook.py` line 67. -/
def refsHeads : List Char := "refs/heads/".toList

/-- The branch derivation of `handle_github_webhook` (`webhook.py` line 67):
`branch = ref.replace("refs/heads/", "") if ref.startswith("refs/heads/")
else None`.  Note that `str.replace` deletes every occurrence of the
pattern, not only the leading one. -/
def deriveBranch (ref : List Char) : Option (List Char) :=
  if refsHeads.isPrefixOf ref then some (pyRemoveAll refsHeads ref) else none

/-- Outcome of the `ref`/branch portion of the webhook handler. -/
inductive RefOutcome
  | reject
  | accept (branch : List Char)
deriving DecidableEq, Repr

/-- The `ref` handling of `handle_github_webhook` (`webhook.py` lines 63-77):
`payload.get("ref", "")` (a missing field becomes `""`); `if not ref` →
error; a `ref` without the `refs/heads/` prefix leaves `branch = None` →
error; an empty derived branch is falsy and is also rejected by
`if not repository_full_name or not branch`. -/
def handleRef (refField : Option (List Char)) : RefOutcome :=
  match refField with
  | none => .reject
  | some ref =>
    if ref = [] then .reject
    else
      match deriveBranch ref with
      | none => .reject
      | some b => if b = [] then .reject else .accept b

/-! ## Deployment runner log capture (`pushbot/deployer.py`, `DeploymentRunner`) -/

/-- Which child stream a captured line came from. -/
inductive Stream
  | stdout
  | stderr
deriving DecidableEq, Repr

/-- One timestamped log record `(timestamp, line, stream_type)`; used both
for the raw reads fed to `_add_log` and for the entries of the in-memory
ordered ring `ordered_logs` (`deployer.py` line 45). -/
structure LogEntry where
  ts : Nat
  line : List Char
  stream : Stream
deriving DecidableEq, Repr

/-- Microseconds per second: `datetime` values are microsecond counts and the
formatted prefix carries whole seconds. -/
def uSec : Nat := 1000000

/-- `DeploymentRunner._format_log_line` (`deployer.py` lines 24-29): an empty
line is returned unchanged, otherwise the line is prefixed with the
bracketed timestamp rendered to whole seconds.  The code reads the clock a
second time inside this helper; both reads of one `_add_log` call are
modelled as the same instant `ts`. -/
def fmtLine (ts : Nat) (line : List Char) : List Char :=
  if line = [] then []
  else '[' :: (natDigits (ts / uSec) ++ (']' :: ' ' :: line))

/-- The discard guard of `DeploymentRunner._add_log` (`deployer.py` line 33):
`if not line or (isinstance(line, str) and not line.strip() and line != '\n'):
return`. -/
def discardLine (line : List Char) : Bool :=
  line.isEmpty || (line.all pyIsSpace && !(line = ['\n'] : Bool))

/-- The in-memory buffers of a `DeploymentRunner` (`deployer.py` lines
17-20): two per-stream line buffers and the single ordered ring. -/
structure RunnerState where
  stdout_buffer : List (List Char)
  stderr_buffer : List (List Char)
  ordered_logs : List LogEntry
deriving DecidableEq, Repr

/-- A fresh runner (`deployer.py` lines 13-22). -/
def initRunner : RunnerState := ⟨[], [], []⟩

/-- `DeploymentRunner._add_log` (`deployer.py` lines 31-48): blank input is
silently dropped; otherwise the formatted line is appended to the matching
per-stream buffer and, together with the full-precision timestamp, to the
ordered ring. -/
def addLog (st : RunnerState) (ts : Nat) (line : List Char) (stream : Stream) : RunnerState :=
  if discardLine line then st
  else
    let f := fmtLine ts line
    { stdout_buffer := if stream = .stdout then st.stdout_buffer ++ [f] else st.stdout_buffer
      stderr_buffer := if stream = .stderr then st.stderr_buffer ++ [f] else st.stderr_buffer
      ordered_logs := st.ordered_logs ++ [⟨ts, f, stream⟩] }

/-- Feeding a sequence of raw captured reads through `_add_log` in order
(each `LogEntry` here is a raw `(now(), raw line, stream)` read). -/
def ingest (st : RunnerState) (xs : List LogEntry) : RunnerState :=
  xs.foldl (fun s x => addLog s x.ts x.line x.stream) st

/-- Timestamp comparison used to sort the ring (`deployer.py` line 125,
`sorted(self.ordered_logs, key=lambda x: x[0])`). -/
def entryLe (a b : LogEntry) : Prop := a.ts ≤ b.ts

instance : DecidableRel entryLe := fun a b => Nat.decLe a.ts b.ts

/-- The persistence step of `DeploymentRunner.run` (`deployer.py` lines
123-139): stable-sort the ring by timestamp, split it into the two streams,
and join each side into one text blob (`"".flatten(...)`); if the ring is
empty, fall back to joining the per-stream buffers. -/
def finalizeBlobs (st : RunnerState) : List Char × List Char :=
  if st.ordered_logs = [] then
    (st.stdout_buffer.flatten, st.stderr_buffer.flatten)
  else
    let sorted := List.insertionSort entryLe st.ordered_logs
    (((sorted.filter (fun e => e.stream = .stdout)).map LogEntry.line).flatten,
     ((sorted.filter (fun e => e.stream = .stderr)).map LogEntry.line).flatten)

/-! ## Deployment status values (`pushbot/models.py` line 29) -/

/-- `Deployment.status` ∈ {queued, running, success, failed}. -/
inductive DStatus
  | queued
  | running
  | success
  | failed
deriving DecidableEq, Repr

/-- Terminal statuses. -/
def DStatus.terminal : DStatus → Bool
  | .success => true
  | .failed => true
  | _ => false

/-! ## SSE replay of a terminal deployment (`pushbot/main.py`, `generate_logs`) -/

/-- A server-sent event: either one log line tagged with its stream, or the
single final status event. -/
inductive SSE
  | lineEv (stream : Stream) (text : List Char)
  | statusEv (status : DStatus) (exit : Option Int)
deriving DecidableEq, Repr

/-- `parse_timestamp_from_line` (`main.py` lines 346-365): read the
bracketed timestamp prefix of a persisted line; under the calendar
abstraction this is the bracketed decimal second count.  `none` models a
line whose prefix does not match the regex. -/
def parseTsLine (l : List Char) : Option Nat :=
  match l with
  | [] => none
  | c :: rest =>
    if c = '[' then
      if rest.takeWhile Char.isDigit = [] then none
      else if (rest.drop (rest.takeWhile Char.isDigit).length).head? = some ']' then
        some (digitsToNat (rest.takeWhile Char.isDigit))
      else none
    else none

/-- The minimal timestamp (`datetime.min`, the parse fallback of `main.py`
lines 364-365), the least element of the timestamp order. -/
def epochTs : Nat := 0

/-- The sort key the replay assigns to a persisted line: its parsed prefix,
or the minimal timestamp when the prefix cannot be parsed. -/
def replayKey (l : List Char) : Nat := (parseTsLine l).getD epochTs

/-- `line + newline if not line.endswith('\n') else line` (`main.py` lines
372 and 379). -/
def withNl (l : List Char) : List Char :=
  if l.getLast? = some '\n' then l else l ++ ['\n']

/-- The per-blob half of the terminal replay (`main.py` lines 368-380):
split the persisted text on newlines, keep the lines with non-blank
`strip()`, and tag each with its parsed timestamp and its stream. -/
def replayEntries (blob : List Char) (stream : Stream) : List LogEntry :=
  ((splitNl blob).filter (fun l => !(l.all pyIsSpace))).map
    (fun l => ⟨replayKey l, withNl l, stream⟩)

/-- The terminal branch of `generate_logs` (`main.py` lines 338-388): parse
both persisted blobs, sort the union of the two streams by parsed timestamp
(`all_logs.sort(key=lambda x: x[0])`, a stable sort), emit one event per
line, then emit exactly one final status event. -/
def replay (stdoutBlob stderrBlob : List Char) (status : DStatus) (exit : Option Int) :
    List SSE :=
  let allLogs := replayEntries stdoutBlob .stdout ++ replayEntries stderrBlob .stderr
  let sorted := List.insertionSort entryLe allLogs
  sorted.map (fun e => SSE.lineEv e.stream e.line) ++ [SSE.statusEv status exit]

/-- The stable timestamp merge of two streams described by the
specification: take from the left stream while its head's timestamp is not
later than the right head's.  This definition follows the spec's words and
is compared against the code's concatenate-then-stable-sort replay. -/
def specStableMerge : List LogEntry → List LogEntry → List LogEntry
  | [], bs => bs
  | as, [] => as
  | a :: as, b :: bs =>
    if a.ts ≤ b.ts then a :: specStableMerge as (b :: bs)
    else b :: specStableMerge (a :: as) bs
termination_by as bs => as.length + bs.length

/-! ## Persistent rows (`pushbot/models.py`) and the scheduler
(`pushbot/deployer.py`, `pushbot/main.py`) -/

/-- A `services` table row (`models.py` lines 8-20). -/
structure ServiceRow where
  id : Nat
  name : String
  repository : String
  path : String
  branch : String
  deploy_command : String
deriving DecidableEq, Repr

/-- A `deployments` table row (`models.py` lines 23-39).

Modelled from the spec: the `triggered_by` field.  `models.py` declares no
`triggered_by` column, yet `deployer.py` line 219 stores one on every
created row and line 291 reads it back, through the ORM base class of the
absent `database.py`; the spec's data model (§3) lists
`triggered_by ∈ {webhook, manual}`, so the row is modelled with that
attribute. -/
structure Row where
  id : Nat
  service_id : Nat
  status : DStatus
  started_at : Nat
  finished_at : Option Nat
  exit_code : Option Int
  stdoutText : String
  stderrText : String
  commit_sha : Option String
  commit_message : Option String
  branch : Option String
  triggered_by : String
deriving DecidableEq, Repr

/-- The persistent store: both tables plus the autoincrement counter for
`deployments.id`.  Row lists are kept in table (insertion) order. -/
structure DB where
  services : List ServiceRow
  rows : List Row
  nextId : Nat
deriving DecidableEq, Repr

/-- An empty store holding the configured services. -/
def initDB (svcs : List ServiceRow) : DB := ⟨svcs, [], 1⟩

/-- Python `x or d` on an optional string (`None` and `""` are falsy).  From
`triggered_by or "manual"` (`deployer.py` lines 219 and 291) and
`branch or service.branch` (`deployer.py` line 218). -/
def pyOrStr (x : Option String) (d : String) : String :=
  match x with
  | none => d
  | some s => if s = "" then d else s

/-- Predicate for a running deployment of service `sid`. -/
def runningFor (sid : Nat) (r : Row) : Bool :=
  r.service_id = sid && r.status = .running

/-- Predicate for a queued deployment of service `sid`. -/
def queuedFor (sid : Nat) (r : Row) : Bool :=
  r.service_id = sid && r.status = .queued

/-- `db.query(Deployment).filter(service_id == sid, status == "running")
.first()` (`deployer.py` lines 206-209): the first matching row in table
order. -/
def findRunning (db : DB) (sid : Nat) : Option Row :=
  db.rows.find? (runningFor sid)

/-- `db.query(Deployment).filter(Deployment.id == did).first()`
(`deployer.py` lines 64 and 117). -/
def findRow (db : DB) (did : Nat) : Option Row :=
  db.rows.find? (fun r => r.id = did)

/-- `db.query(Service).filter(Service.id == sid).first()` (`deployer.py`
line 281, `main.py` line 482). -/
def findService (db : DB) (sid : Nat) : Option ServiceRow :=
  db.services.find? (fun s => s.id = sid)

/-- The row `start_deployment` creates (`deployer.py` lines 205-220): look
for a running deployment of the service and make the new row `queued` when
one exists and `running` otherwise.  The whole check-and-insert runs
without an intervening suspension point of the event loop, so it is one
atomic transition. -/
def newRow (db : DB) (svc : ServiceRow)
    (commit_sha commit_message branch trigger : Option String) (now : Nat) : Row :=
  { id := db.nextId
    service_id := svc.id
    status := if (findRunning db svc.id).isSome then .queued else .running
    started_at := now
    finished_at := none
    exit_code := none
    stdoutText := ""
    stderrText := ""
    commit_sha := commit_sha
    commit_message := commit_message
    branch := some (pyOrStr branch svc.branch)
    triggered_by := pyOrStr trigger "manual" }

/-- The insertion performed by `start_deployment`: append the new row and
advance the id counter, returning the new id (`deployer.py` lines
211-233). -/
def start_deployment (db : DB) (svc : ServiceRow)
    (commit_sha commit_message branch trigger : Option String) (now : Nat) : DB × Nat :=
  ({ db with
      rows := db.rows ++ [newRow db svc commit_sha commit_message branch trigger now]
      nextId := db.nextId + 1 }, db.nextId)

/-- The terminal update of `DeploymentRunner.run` (`deployer.py` lines
117-140) applied to the found row: `success` on exit code `0`, `failed`
otherwise, with `finished_at`, `exit_code` and the persisted log texts
set. -/
def finalizeRow (exit : Int) (fin : Nat) (outT errT : String) (r : Row) : Row :=
  { r with
    status := if exit = 0 then .success else .failed
    finished_at := some fin
    exit_code := some exit
    stdoutText := outT
    stderrText := errT }

/-- Write the terminal update into the store (row ids are unique, so the
`filter(id == did).first()` row is the only one touched). -/
def finalizeInDb (db : DB) (did : Nat) (exit : Int) (fin : Nat) (outT errT : String) : DB :=
  { db with rows := db.rows.map (fun r => if r.id = did then finalizeRow exit fin outT errT r else r) }

/-- `db.query(Deployment).filter(service_id == sid, status == "queued")
.order_by(started_at.asc()).first()` (`deployer.py` lines 272-275): the
head of the queued rows under a stable sort by `started_at`. -/
def pickNextQueued (db : DB) (sid : Nat) : Option Row :=
  (List.insertionSort (fun r s : Row => r.started_at ≤ s.started_at)
    (db.rows.filter (queuedFor sid))).head?

/-- Mark the dequeued row `running` (`deployer.py` lines 286-287). -/
def promoteRow (db : DB) (did : Nat) : DB :=
  { db with rows := db.rows.map (fun r => if r.id = did then { r with status := DStatus.running } else r) }

/-- `_process_queue_for_service` (`deployer.py` lines 267-292): promote the
oldest queued deployment of the service to `running`, provided the service
still exists; also report which row was promoted. -/
def processQueue (db : DB) (sid : Nat) : DB × Option Nat :=
  match pickNextQueued db sid with
  | none => (db, none)
  | some q =>
    match findService db sid with
    | none => (db, none)
    | some _ => (promoteRow db q.id, some q.id)

/-- One runner completion: the terminal DB write of `DeploymentRunner.run`
(`deployer.py` lines 117-140) followed by the queue hand-off in the
`finally` of `_run_deployment_async` (`deployer.py` lines 249-258).  From
the last suspension point inside `run` to the end of
`_process_queue_for_service` the event loop never yields, so the pair is
one atomic transition.  Completions only happen for rows holding a live
runner, which are exactly the `running` rows. -/
def completeStep (db : DB) (did : Nat) (exit : Int) (fin : Nat) (outT errT : String) :
    DB × Option Nat :=
  match findRow db did with
  | none => (db, none)
  | some r =>
    if r.status = .running then
      processQueue (finalizeInDb db did exit fin outT errT) r.service_id
    else (db, none)

/-- The outcome of `subprocess.Popen` at `deployer.py` lines 82-92: either
the child spawns and is eventually reaped with an exit code, or the OS
refuses to start it and `Popen` raises `OSError`. -/
inductive SpawnOutcome
  | spawned (exit : Int)
  | failedSpawn (osError : String)
deriving DecidableEq, Repr

/-- A runner's full effect on the store, spawn outcome included.  When the
spawn succeeds this is `completeStep`.  When `Popen` raises, `run` has no
handler (`deployer.py` lines 76-142), so the DB write at lines 117-140
never executes; the exception unwinds through `await runner.run(...)` into
the `finally` of `_run_deployment_async` (lines 247-258), which still pops
the runner and processes the queue.  The row keeps whatever state it had. -/
def runnerStep (db : DB) (did : Nat) (outcome : SpawnOutcome) (fin : Nat)
    (outT errT : String) : DB × Option Nat :=
  match outcome with
  | .spawned exit => completeStep db did exit fin outT errT
  | .failedSpawn _ =>
    match findRow db did with
    | none => (db, none)
    | some r =>
      if r.status = .running then processQueue db r.service_id else (db, none)

/-- Who asked for a deployment: the two call sites of `start_deployment`
pass `triggered_by="webhook"` (`webhook.py` line 122) or
`triggered_by="manual"` (`main.py` line 494, `cli.py` line 116). -/
inductive Trigger
  | webhook
  | manual
deriving DecidableEq, Repr

/-- The literal each caller passes. -/
def Trigger.str : Trigger → String
  | .webhook => "webhook"
  | .manual => "manual"

/-- The transitions the scheduler state can take: a webhook or manual
enqueue (`start_deployment`), or a runner completion with its queue
hand-off.  Queue promotions happen only inside the completion step, where
the code runs them without yielding the event loop. -/
inductive Event
  | enqueue (svc : ServiceRow) (trigger : Trigger)
      (commit_sha commit_message branch : Option String) (now : Nat)
  | complete (did : Nat) (exit : Int) (fin : Nat) (outT errT : String)

/-- Apply one event. -/
def step (db : DB) : Event → DB
  | .enqueue svc tr sha msg br now =>
    (start_deployment db svc sha msg br (some tr.str) now).1
  | .complete did exit fin outT errT =>
    (completeStep db did exit fin outT errT).1

/-- Run a trace of events from a store. -/
def runEvents (db : DB) (evs : List Event) : DB := evs.foldl step db

/-- `deploy_service` (`main.py` lines 476-501): look the service up by id —
`404` when absent, and otherwise `start_deployment` with `commit_sha=None`,
`commit_message="Ручной запуск деплоя"`, `branch=service.branch`,
`triggered_by="manual"`. -/
def deploy_service (db : DB) (sid : Nat) (now : Nat) : DB × Option Nat :=
  match findService db sid with
  | none => (db, none)
  | some svc =>
    let res := start_deployment db svc none (some "Ручной запуск деплоя")
      (some svc.branch) (some "manual") now
    (res.1, some res.2)

/-- `clear_deployments` (`main.py` lines 504-517): delete the rows whose
status is in `{success, failed}` and return how many were deleted. -/
def clear_deployments (db : DB) : DB × Nat :=
  ({ db with rows := db.rows.filter (fun r => !r.status.terminal) },
   db.rows.countP (fun r => r.status.terminal))

/-- The completion schedule of claim C2: starting from a store, repeatedly
finish the currently running deployment of service `sid` (arbitrary exit
data), recording the id promoted by each hand-off. -/
def completionsTrace (db : DB) (sid : Nat) : Nat → List Nat
  | 0 => []
  | k + 1 =>
    match findRunning db sid with
    | none => []
    | some r =>
      let res := completeStep db r.id 0 0 "" ""
      res.2.toList ++ completionsTrace res.1 sid k

/-! ## Further definitions used by the claim statements -/

/-! ## The system invariant over reachable stores -/

/-- Structural well-formedness plus the behavioural clauses of claims C1,
C3 and C6: unique bounded row ids, at most one running row per service,
terminal rows carry `finished_at` and `exit_code`, and every row's
`triggered_by` is one of the two caller literals. -/
def SysInv (db : DB) : Prop :=
  (db.rows.map Row.id).Nodup ∧
  (∀ r ∈ db.rows, r.id < db.nextId) ∧
  (∀ sid, db.rows.countP (runningFor sid) ≤ 1) ∧
  (∀ r ∈ db.rows, r.status.terminal = true →
    r.finished_at.isSome = true ∧ r.exit_code.isSome = true) ∧
  (∀ r ∈ db.rows, r.triggered_by = "webhook" ∨ r.triggered_by = "manual")

/-- The arguments of one enqueue to a fixed service in the C2 scenario. -/
structure EnqArg where
  trigger : Trigger
  commit_sha : Option String
  commit_message : Option String
  branch : Option String
  now : Nat

/-- The event trace of a sequence of enqueues to one service. -/
def enqEvents (svc : ServiceRow) (args : List EnqArg) : List Event :=
  args.map (fun a => .enqueue svc a.trigger a.commit_sha a.commit_message a.branch a.now)

/-- The ring entries `_add_log` produces for a list of raw reads: the
non-blank reads, each formatted with its timestamp. -/
def keptEntries (xs : List LogEntry) : List LogEntry :=
  (xs.filter (fun x => !discardLine x.line)).map
    (fun x => ⟨x.ts, fmtLine x.ts x.line, x.stream⟩)

/-- The replay-side view of a persisted ring entry: the second-precision
key recovered from the prefix, together with the persisted line. -/
def toRep (e : LogEntry) : LogEntry := ⟨e.ts / uSec, e.line, e.stream⟩

/-- The text payload of a line event. -/
def sseText : SSE → Option (List Char)
  | .lineEv _ t => some t
  | .statusEv _ _ => none

/-- The text payload of a line event of one particular stream. -/
def sseTextOf (s : Stream) : SSE → Option (List Char)
  | .lineEv s2 t => if s2 = s then some t else none
  | .statusEv _ _ => none

/-- Recognize the final status event. -/
def isStatusEv : SSE → Bool
  | .statusEv _ _ => true
  | _ => false

/-- A raw captured read is newline-terminated: it is one line ending in the
single `\n` that `readline` leaves on it. -/
def rawOk (l : List Char) : Prop :=
  l ≠ [] ∧ l.getLast? = some '\n' ∧ '\n' ∉ l.dropLast

instance (l : List Char) : Decidable (rawOk l) := by
  unfold rawOk
  infer_instance


/-! ## Generic helpers about rows with unique ids -/

/-- A list of rows with pairwise distinct ids splits around any member, and
no other element shares the member's id. -/
theorem decomp_of_nodup {l : List Row} {r0 : Row}
    (hn : (l.map Row.id).Nodup) (hr : r0 ∈ l) :
    ∃ l1 l2, l = l1 ++ r0 :: l2 ∧ (∀ x ∈ l1, x.id ≠ r0.id) ∧ ∀ x ∈ l2, x.id ≠ r0.id := by
  induction l with
  | nil => cases hr
  | cons h t ih =>
    rw [List.map_cons, List.nodup_cons] at hn
    rcases List.mem_cons.mp hr with rfl | hrt
    · refine ⟨[], t, rfl, by simp, fun x hx hex => hn.1 ?_⟩
      exact hex ▸ List.mem_map_of_mem Row.id hx
    · obtain ⟨l1, l2, hdec, h1, h2⟩ := ih hn.2 hrt
      refine ⟨h :: l1, l2, by rw [hdec]; rfl, ?_, h2⟩
      intro x hx
      rcases List.mem_cons.mp hx with rfl | hx1
      · intro hex
        exact hn.1 (hex ▸ List.mem_map_of_mem Row.id hrt)
      · exact h1 x hx1

/-- Updating every row with a given id, when ids are unique, touches only
the distinguished member of the decomposition. -/
theorem updId_decomp {l1 l2 : List Row} {r0 : Row} (u : Row → Row)
    (h1 : ∀ x ∈ l1, x.id ≠ r0.id) (h2 : ∀ x ∈ l2, x.id ≠ r0.id) :
    ((l1 ++ r0 :: l2).map fun r => if r.id = r0.id then u r else r) = l1 ++ u r0 :: l2 := by
  rw [List.map_append, List.map_cons, if_pos rfl]
  have e1 : l1.map (fun r => if r.id = r0.id then u r else r) = l1 := by
    rw [List.map_congr_left fun x hx => if_neg (h1 x hx), List.map_id']
  have e2 : l2.map (fun r => if r.id = r0.id then u r else r) = l2 := by
    rw [List.map_congr_left fun x hx => if_neg (h2 x hx), List.map_id']
  rw [e1, e2]

/-- Splitting of `countP` over a decomposition. -/
theorem countP_decomp (l1 l2 : List Row) (x : Row) (p : Row → Bool) :
    (l1 ++ x :: l2).countP p = l1.countP p + (if p x then 1 else 0) + l2.countP p := by
  rw [List.countP_append, List.countP_cons]
  omega

/-- `find?` over a predicate satisfied at most once finds the satisfying
member. -/
theorem find?_of_countP_le_one {l : List Row} {p : Row → Bool} {x : Row}
    (hc : l.countP p ≤ 1) (hx : x ∈ l) (hp : p x = true) : l.find? p = some x := by
  induction l with
  | nil => cases hx
  | cons h t ih =>
    rw [List.countP_cons] at hc
    by_cases hph : p h = true
    · rcases List.mem_cons.mp hx with rfl | hxt
      · exact List.find?_cons_of_pos t hph
      · exfalso
        have h1 : 1 ≤ t.countP p := by
          rw [Nat.one_le_iff_ne_zero]
          intro h0
          exact absurd hp (List.countP_eq_zero.mp h0 x hxt)
        rw [if_pos hph] at hc
        omega
    · have hxt : x ∈ t := by
        rcases List.mem_cons.mp hx with rfl | hxt
        · exact absurd hp hph
        · exact hxt
      rw [List.find?_cons_of_neg t hph]
      rw [if_neg hph] at hc
      exact ih (by omega) hxt

/-- With unique ids, looking a row up by its id finds that row. -/
theorem find?_id_of_nodup {l : List Row} {r : Row}
    (hn : (l.map Row.id).Nodup) (hr : r ∈ l) :
    l.find? (fun x => x.id = r.id) = some r := by
  induction l with
  | nil => cases hr
  | cons h t ih =>
    rw [List.map_cons, List.nodup_cons] at hn
    rcases List.mem_cons.mp hr with rfl | hrt
    · exact List.find?_cons_of_pos t (by simp)
    · have hne : ¬(h.id = r.id) := fun hex =>
        hn.1 (hex ▸ List.mem_map_of_mem Row.id hrt)
      rw [List.find?_cons_of_neg t (by simpa using hne)]
      exact ih hn.2 hrt

/-- A member of the head of a list is a member. -/
theorem mem_of_head?_eq_some {α : Type _} {l : List α} {a : α}
    (h : l.head? = some a) : a ∈ l := by
  cases l with
  | nil => cases h
  | cons x t =>
    rw [List.head?_cons, Option.some.injEq] at h
    exact h ▸ List.mem_cons_self x t

/-- The empty store satisfies the invariant. -/
theorem sysInv_init (svcs : List ServiceRow) : SysInv (initDB svcs) := by
  refine ⟨by simp [initDB], ?_, ?_, ?_, ?_⟩ <;> simp [initDB]

/-- The finalized row is never running. -/
theorem finalizeRow_not_running (exit : Int) (fin : Nat) (outT errT : String)
    (r : Row) (sid : Nat) : runningFor sid (finalizeRow exit fin outT errT r) = false := by
  simp only [runningFor, finalizeRow]
  by_cases h : exit = 0 <;> simp [h]

/-- The finalized row is terminal. -/
theorem finalizeRow_terminal (exit : Int) (fin : Nat) (outT errT : String) (r : Row) :
    (finalizeRow exit fin outT errT r).status.terminal = true := by
  simp only [finalizeRow]
  by_cases h : exit = 0 <;> simp [h, DStatus.terminal]

/-- The running-row predicate on the freshly inserted row. -/
theorem runningFor_newRow (db : DB) (svc : ServiceRow)
    (sha msg br tr : Option String) (now : Nat) (sid : Nat) :
    runningFor sid (newRow db svc sha msg br tr now) =
      (decide (svc.id = sid) && !(findRunning db svc.id).isSome) := by
  simp only [runningFor, newRow]
  by_cases h : (findRunning db svc.id).isSome = true <;> simp [h]

/-- The freshly inserted row is never terminal. -/
theorem newRow_not_terminal (db : DB) (svc : ServiceRow)
    (sha msg br tr : Option String) (now : Nat) :
    (newRow db svc sha msg br tr now).status.terminal = false := by
  simp only [newRow]
  by_cases h : (findRunning db svc.id).isSome = true <;> simp [h, DStatus.terminal]

/-- `start_deployment` preserves the invariant whenever the caller passes
one of the two trigger literals. -/
theorem sysInv_start (db : DB) (svc : ServiceRow) (sha msg br tr : Option String)
    (now : Nat) (h : SysInv db)
    (htr : pyOrStr tr "manual" = "webhook" ∨ pyOrStr tr "manual" = "manual") :
    SysInv (start_deployment db svc sha msg br tr now).1 := by
  obtain ⟨hnd, hbd, hrun, hterm, htrig⟩ := h
  have hrows : (start_deployment db svc sha msg br tr now).1.rows
      = db.rows ++ [newRow db svc sha msg br tr now] := rfl
  have hnext : (start_deployment db svc sha msg br tr now).1.nextId = db.nextId + 1 := rfl
  refine ⟨?_, ?_, ?_, ?_, ?_⟩
  · rw [hrows, List.map_append, List.nodup_append]
    refine ⟨hnd, by simp, ?_⟩
    intro i hi hi2
    simp only [List.map_cons, List.map_nil, List.mem_cons, List.not_mem_nil, or_false] at hi2
    obtain ⟨x, hx, hxi⟩ := List.mem_map.mp hi
    have hxid : x.id = db.nextId := by rw [hxi, hi2]; rfl
    exact absurd (hxid ▸ hbd x hx) (lt_irrefl _)
  · intro x hx
    rw [hrows] at hx
    rw [hnext]
    rcases List.mem_append.mp hx with hx1 | hx2
    · exact lt_trans (hbd x hx1) (Nat.lt_succ_self _)
    · simp only [List.mem_cons, List.not_mem_nil, or_false] at hx2
      rw [hx2]
      exact Nat.lt_succ_self _
  · intro sid
    rw [hrows, List.countP_append]
    have hone : List.countP (runningFor sid) [newRow db svc sha msg br tr now]
        = if runningFor sid (newRow db svc sha msg br tr now) then 1 else 0 := by
      simp [List.countP_cons]
    by_cases hact : (findRunning db svc.id).isSome = true
    · have hz : runningFor sid (newRow db svc sha msg br tr now) = false := by
        rw [runningFor_newRow]
        simp [hact]
      rw [hone, hz]
      simpa using hrun sid
    · by_cases hsid : svc.id = sid
      · have h0 : db.rows.countP (runningFor sid) = 0 := by
          rw [List.countP_eq_zero]
          intro a ha
          have hfn : findRunning db svc.id = none := Option.not_isSome_iff_eq_none.mp hact
          have hna := List.find?_eq_none.mp hfn a ha
          rw [← hsid]
          exact hna
        rw [h0, hone]
        split <;> omega
      · have hz : runningFor sid (newRow db svc sha msg br tr now) = false := by
          rw [runningFor_newRow]
          simp [hsid]
        rw [hone, hz]
        simpa using hrun sid
  · intro x hx hxt
    rw [hrows] at hx
    rcases List.mem_append.mp hx with hx1 | hx2
    · exact hterm x hx1 hxt
    · simp only [List.mem_cons, List.not_mem_nil, or_false] at hx2
      rw [hx2, newRow_not_terminal] at hxt
      cases hxt
  · intro x hx
    rw [hrows] at hx
    rcases List.mem_append.mp hx with hx1 | hx2
    · exact htrig x hx1
    · simp only [List.mem_cons, List.not_mem_nil, or_false] at hx2
      rw [hx2]
      exact htr

/-- Unpacking the queued predicate. -/
theorem queuedFor_spec {sid : Nat} {r : Row} (h : queuedFor sid r = true) :
    r.service_id = sid ∧ r.status = .queued := by
  simpa [queuedFor] using h

/-- The finalized row is not queued either. -/
theorem finalizeRow_not_queued (exit : Int) (fin : Nat) (outT errT : String)
    (r : Row) (sid : Nat) : queuedFor sid (finalizeRow exit fin outT errT r) = false := by
  simp only [queuedFor, finalizeRow]
  by_cases h : exit = 0 <;> simp [h]

/-- What `pickNextQueued` returns is a queued row of the store. -/
theorem pickNextQueued_mem {db : DB} {sid : Nat} {q : Row}
    (h : pickNextQueued db sid = some q) : q ∈ db.rows ∧ queuedFor sid q = true := by
  have hq := mem_of_head?_eq_some h
  rw [List.mem_insertionSort] at hq
  exact List.mem_filter.mp hq

/-- Completions (with their queue hand-off) preserve the invariant. -/
theorem sysInv_complete (db : DB) (did : Nat) (exit : Int) (fin : Nat)
    (outT errT : String) (h : SysInv db) :
    SysInv (completeStep db did exit fin outT errT).1 := by
  rcases hfind : findRow db did with _ | r
  · simpa [completeStep, hfind] using h
  · by_cases hst : r.status = .running
    · have hrmem : r ∈ db.rows := List.mem_of_find?_eq_some hfind
      have hrid : r.id = did := by simpa using List.find?_some hfind
      subst hrid
      obtain ⟨hnd, hbd, hrun, hterm, htrig⟩ := h
      obtain ⟨l1, l2, hdec, h1, h2⟩ := decomp_of_nodup hnd hrmem
      have hupd : (finalizeInDb db r.id exit fin outT errT).rows
          = l1 ++ finalizeRow exit fin outT errT r :: l2 := by
        show db.rows.map _ = _
        rw [hdec]
        exact updId_decomp _ h1 h2
      have hfrid : (finalizeRow exit fin outT errT r).id = r.id := rfl
      have hids1 : (finalizeInDb db r.id exit fin outT errT).rows.map Row.id
          = db.rows.map Row.id := by
        rw [hupd, hdec, List.map_append, List.map_append, List.map_cons, List.map_cons, hfrid]
      have hnext1 : (finalizeInDb db r.id exit fin outT errT).nextId = db.nextId := rfl
      have hsvcs1 : (finalizeInDb db r.id exit fin outT errT).services = db.services := rfl
      have hmem1 : ∀ x ∈ (finalizeInDb db r.id exit fin outT errT).rows,
          x = finalizeRow exit fin outT errT r ∨ x ∈ db.rows := by
        intro x hx
        rw [hupd] at hx
        rcases List.mem_append.mp hx with hx1 | hx2
        · exact Or.inr (hdec ▸ List.mem_append.mpr (Or.inl hx1))
        · rcases List.mem_cons.mp hx2 with rfl | hx3
          · exact Or.inl rfl
          · exact Or.inr (hdec ▸ List.mem_append.mpr (Or.inr (List.mem_cons_of_mem _ hx3)))
      have hcount1 : ∀ p : Row → Bool,
          (finalizeInDb db r.id exit fin outT errT).rows.countP p
            + (if p r then 1 else 0)
          = db.rows.countP p + (if p (finalizeRow exit fin outT errT r) then 1 else 0) := by
        intro p
        rw [hupd, hdec, countP_decomp, countP_decomp]
        omega
      have hrr : runningFor r.service_id r = true := by simp [runningFor, hst]
      have h1inv : SysInv (finalizeInDb db r.id exit fin outT errT) := by
        refine ⟨?_, ?_, ?_, ?_, ?_⟩
        · rw [hids1]; exact hnd
        · intro x hx
          rw [hnext1]
          rcases hmem1 x hx with rfl | hx2
          · exact hbd r hrmem
          · exact hbd x hx2
        · intro sid
          have hc := hcount1 (runningFor sid)
          rw [finalizeRow_not_running] at hc
          simp only [Bool.false_eq_true, if_false] at hc
          have hle := hrun sid
          split at hc <;> omega
        · intro x hx hxt
          rcases hmem1 x hx with rfl | hx2
          · constructor <;> simp [finalizeRow]
          · exact hterm x hx2 hxt
        · intro x hx
          rcases hmem1 x hx with rfl | hx2
          · exact htrig r hrmem
          · exact htrig x hx2
      have hzero : (finalizeInDb db r.id exit fin outT errT).rows.countP
          (runningFor r.service_id) = 0 := by
        have hc := hcount1 (runningFor r.service_id)
        rw [finalizeRow_not_running, hrr] at hc
        simp only [Bool.false_eq_true, if_false, if_true] at hc
        have hle := hrun r.service_id
        omega
      rcases hpick : pickNextQueued (finalizeInDb db r.id exit fin outT errT) r.service_id
        with _ | q
      · simp only [completeStep, hfind, if_pos hst, processQueue, hpick]
        exact h1inv
      · rcases hsvc : findService (finalizeInDb db r.id exit fin outT errT) r.service_id
          with _ | s
        · simp only [completeStep, hfind, if_pos hst, processQueue, hpick, hsvc]
          exact h1inv
        · simp only [completeStep, hfind, if_pos hst, processQueue, hpick, hsvc]
          -- promotion of q
          set db1 := finalizeInDb db r.id exit fin outT errT with hdb1
          obtain ⟨hq_mem, hq_pred⟩ := pickNextQueued_mem hpick
          obtain ⟨hq_sid, hq_st⟩ := queuedFor_spec hq_pred
          obtain ⟨hnd1, hbd1, hrun1, hterm1, htrig1⟩ := h1inv
          obtain ⟨m1, m2, hdec2, g1, g2⟩ := decomp_of_nodup hnd1 hq_mem
          have hupd2 : (promoteRow db1 q.id).rows
              = m1 ++ { q with status := DStatus.running } :: m2 := by
            show db1.rows.map _ = _
            rw [hdec2]
            exact updId_decomp _ g1 g2
          have hpqid : ({ q with status := DStatus.running } : Row).id = q.id := rfl
          have hids2 : (promoteRow db1 q.id).rows.map Row.id = db1.rows.map Row.id := by
            rw [hupd2, hdec2, List.map_append, List.map_append, List.map_cons, List.map_cons,
              hpqid]
          have hmem2 : ∀ x ∈ (promoteRow db1 q.id).rows,
              x = { q with status := DStatus.running } ∨ x ∈ db1.rows := by
            intro x hx
            rw [hupd2] at hx
            rcases List.mem_append.mp hx with hx1 | hx2
            · exact Or.inr (hdec2 ▸ List.mem_append.mpr (Or.inl hx1))
            · rcases List.mem_cons.mp hx2 with rfl | hx3
              · exact Or.inl rfl
              · exact Or.inr (hdec2 ▸ List.mem_append.mpr (Or.inr (List.mem_cons_of_mem _ hx3)))
          have hcount2 : ∀ p : Row → Bool,
              (promoteRow db1 q.id).rows.countP p + (if p q then 1 else 0)
              = db1.rows.countP p + (if p { q with status := DStatus.running } then 1 else 0) := by
            intro p
            rw [hupd2, hdec2, countP_decomp, countP_decomp]
            omega
          refine ⟨?_, ?_, ?_, ?_, ?_⟩
          · rw [hids2]; exact hnd1
          · intro x hx
            rcases hmem2 x hx with rfl | hx2
            · exact hbd1 q hq_mem
            · exact hbd1 x hx2
          · intro sid
            have hc := hcount2 (runningFor sid)
            by_cases hs : q.service_id = sid
            · have hpq : runningFor sid { q with status := DStatus.running } = true := by
                simp [runningFor, hs]
              have hqf : runningFor sid q = false := by
                simp [runningFor, hq_st]
              have hz : db1.rows.countP (runningFor sid) = 0 := by
                rw [← hs, hq_sid]
                exact hzero
              rw [hpq, hqf, hz] at hc
              simp only [Bool.false_eq_true, if_false, if_true] at hc
              omega
            · have hpq : runningFor sid { q with status := DStatus.running } = false := by
                simp [runningFor, hs]
              have hqf : runningFor sid q = false := by
                simp [runningFor, hs]
              rw [hpq, hqf] at hc
              simp only [Bool.false_eq_true, if_false] at hc
              have := hrun1 sid
              omega
          · intro x hx hxt
            rcases hmem2 x hx with rfl | hx2
            · simp [DStatus.terminal] at hxt
            · exact hterm1 x hx2 hxt
          · intro x hx
            rcases hmem2 x hx with rfl | hx2
            · exact htrig1 q hq_mem
            · exact htrig1 x hx2
    · simpa [completeStep, hfind, hst] using h

/-- Every event preserves the invariant. -/
theorem sysInv_step (db : DB) (ev : Event) (h : SysInv db) : SysInv (step db ev) := by
  cases ev with
  | enqueue svc tr sha msg br now =>
    refine sysInv_start db svc sha msg br (some tr.str) now h ?_
    cases tr <;> simp [Trigger.str, pyOrStr]
  | complete did exit fin outT errT => exact sysInv_complete db did exit fin outT errT h

/-- The invariant holds at every reachable store. -/
theorem sysInv_runEvents (svcs : List ServiceRow) (evs : List Event) :
    SysInv (runEvents (initDB svcs) evs) := by
  suffices h : ∀ (evs : List Event) (db : DB), SysInv db → SysInv (runEvents db evs) from
    h evs (initDB svcs) (sysInv_init svcs)
  intro evs
  induction evs with
  | nil => exact fun db h => h
  | cons e t ih => exact fun db h => ih (step db e) (sysInv_step db e h)

/-- C1: For every service, at every reachable state of the system (any
interleaving of webhook enqueues, manual enqueues, and runner completions
with their queue promotions), the number of that service's Deployment rows
with status `running` is at most 1. -/
theorem pushbot_c1 (svcs : List ServiceRow) (evs : List Event) (sid : Nat) :
    (runEvents (initDB svcs) evs).rows.countP (runningFor sid) ≤ 1 :=
  (sysInv_runEvents svcs evs).2.2.1 sid

/-- Terminal statuses are exactly `success` and `failed`. -/
theorem terminal_iff (s : DStatus) : s.terminal = true ↔ (s = .success ∨ s = .failed) := by
  cases s <;> simp [DStatus.terminal]

/-- C9: POST `/api/deployments/clear` deletes exactly the Deployment rows
whose status is `success` or `failed` and returns their count; every row
whose status is `running` or `queued` is left with unchanged multiplicity,
so the multiset of non-terminal rows is preserved. -/
theorem pushbot_c9 (db : DB) :
    (clear_deployments db).2
      = db.rows.countP (fun r => r.status = .success || r.status = .failed)
    ∧ (∀ r : Row, r.status = .success ∨ r.status = .failed →
        (clear_deployments db).1.rows.count r = 0)
    ∧ (∀ r : Row, r.status = .queued ∨ r.status = .running →
        (clear_deployments db).1.rows.count r = db.rows.count r)
    ∧ (clear_deployments db).1.services = db.services
    ∧ (clear_deployments db).1.nextId = db.nextId := by
  refine ⟨?_, ?_, ?_, rfl, rfl⟩
  · show db.rows.countP (fun r => r.status.terminal) = _
    apply List.countP_congr
    intro r _
    simp [terminal_iff]
  · intro r hr
    apply List.count_eq_zero.mpr
    intro hmem
    have := (List.mem_filter.mp hmem).2
    rw [Bool.not_eq_eq_eq_not, Bool.not_true] at this
    exact absurd ((terminal_iff r.status).mpr hr) (by simp [this])
  · intro r hr
    apply List.count_filter
    have : r.status.terminal = false := by
      rcases hr with h | h <;> simp [h, DStatus.terminal]
    simp [this]

/-- C10: a captured line that is empty, or whitespace-only and different
from the single newline, is silently discarded by `_add_log`: the runner
state — ordered ring and both per-stream buffers — is unchanged, hence so
are the blobs later persisted; and since distinct raw inputs can leave the
state equal, the capture is not injective on raw child output. -/
theorem pushbot_c10 (st : RunnerState) (ts : Nat) (line : List Char) (stream : Stream)
    (h : line = [] ∨ (line.all pyIsSpace = true ∧ line ≠ ['\n'])) :
    addLog st ts line stream = st
    ∧ (addLog st ts line stream).ordered_logs = st.ordered_logs
    ∧ (addLog st ts line stream).stdout_buffer = st.stdout_buffer
    ∧ (addLog st ts line stream).stderr_buffer = st.stderr_buffer
    ∧ finalizeBlobs (addLog st ts line stream) = finalizeBlobs st
    ∧ (' ' :: line ≠ line ∧ addLog st ts (' ' :: line) stream = addLog st ts line stream) := by
  have hd : discardLine line = true := by
    rcases h with rfl | ⟨hall, hne⟩
    · simp [discardLine]
    · simp [discardLine, hall, hne]
  have hd2 : discardLine (' ' :: line) = true := by
    rcases h with rfl | ⟨hall, hne⟩
    · simp [discardLine, pyIsSpace]
    · have : (' ' :: line).all pyIsSpace = true := by
        simp [List.all_cons, hall, pyIsSpace]
      simp [discardLine, this]
  have he : addLog st ts line stream = st := by simp [addLog, hd]
  have he2 : addLog st ts (' ' :: line) stream = st := by simp [addLog, hd2]
  refine ⟨he, by rw [he], by rw [he], by rw [he], by rw [he], ?_, by rw [he, he2]⟩
  intro hcontra
  have : (' ' :: line).length = line.length := by rw [hcontra]
  simp at this

/-- C10 witness at the concrete whitespace-only line `"  "`. -/
theorem pushbot_c10_witness :
    (("  ".toList = ([] : List Char) ∨ ("  ".toList.all pyIsSpace = true ∧ "  ".toList ≠ ['\n'])))
    ∧ addLog initRunner 3 ("  ".toList) Stream.stdout = initRunner :=
  ⟨Or.inr (by decide),
   (pushbot_c10 initRunner 3 ("  ".toList) Stream.stdout (Or.inr (by decide))).1⟩

/-- C4: the claim says a spawn failure finalizes the row with status
`failed`, `exit_code = -1` and the OS error in `stderr`.  The code has no
handler around `subprocess.Popen`, so after a failed spawn (for example a
service whose `path` does not exist) the row is still `running` with
`exit_code`, `finished_at` unset and `stderr` empty. -/
theorem pushbot_c4 :
    (runnerStep
        (start_deployment (initDB [⟨1, "web", "alice/site", "/missing", "main", "echo hi"⟩])
          ⟨1, "web", "alice/site", "/missing", "main", "echo hi"⟩
          none none none (some "webhook") 0).1
        1 (.failedSpawn "No such file or directory") 9 "" "").1.rows.map
      (fun r => (r.status, r.exit_code, r.stderrText, r.finished_at))
    = [(DStatus.running, none, "", none)] := by
  decide

/-- C6 counterexample: the manual trigger stores the literal
`"Ручной запуск деплоя"` (`main.py` line 492), not `"Manual deployment"`. -/
theorem pushbot_c6_counterexample :
    ((deploy_service (initDB [⟨1, "web", "alice/site", "/tmp/site", "main", "echo hi"⟩]) 1 0).1.rows.map
        Row.commit_message = [some "Ручной запуск деплоя"])
    ∧ ¬ ((deploy_service (initDB [⟨1, "web", "alice/site", "/tmp/site", "main", "echo hi"⟩]) 1 0).1.rows.map
        Row.commit_message = [some "Manual deployment"]) := by
  decide

/-- C6 (amended): a manual trigger POST for an existing service creates one
Deployment with `triggered_by = "manual"`,
`commit_message = "Ручной запуск деплоя"` and `commit_sha = null`; an
unknown service id yields 404 and no row; and every reachable Deployment
row records a `triggered_by` in `{webhook, manual}`. -/
theorem pushbot_c6 :
    (∀ (db : DB) (sid now : Nat) (svc : ServiceRow), findService db sid = some svc →
      (deploy_service db sid now).2 = some db.nextId
      ∧ (deploy_service db sid now).1.rows = db.rows
          ++ [newRow db svc none (some "Ручной запуск деплоя") (some svc.branch) (some "manual") now]
      ∧ (newRow db svc none (some "Ручной запуск деплоя") (some svc.branch)
          (some "manual") now).triggered_by = "manual"
      ∧ (newRow db svc none (some "Ручной запуск деплоя") (some svc.branch)
          (some "manual") now).commit_message = some "Ручной запуск деплоя"
      ∧ (newRow db svc none (some "Ручной запуск деплоя") (some svc.branch)
          (some "manual") now).commit_sha = none)
    ∧ (∀ (db : DB) (sid now : Nat), findService db sid = none →
        deploy_service db sid now = (db, none))
    ∧ (∀ (svcs : List ServiceRow) (evs : List Event) (r : Row),
        r ∈ (runEvents (initDB svcs) evs).rows →
        r.triggered_by = "webhook" ∨ r.triggered_by = "manual") := by
  refine ⟨?_, ?_, ?_⟩
  · intro db sid now svc hfind
    refine ⟨?_, ?_, ?_, rfl, rfl⟩
    · simp [deploy_service, hfind, start_deployment]
    · simp [deploy_service, hfind, start_deployment]
    · simp [newRow, pyOrStr]
  · intro db sid now hfind
    simp [deploy_service, hfind]
  · intro svcs evs r hr
    exact (sysInv_runEvents svcs evs).2.2.2.2 r hr

/-- C6 witness: the three parts of the amended claim at a one-service
store. -/
theorem pushbot_c6_witness :
    (findService (initDB [⟨1, "web", "alice/site", "/tmp/site", "main", "echo hi"⟩]) 1
        = some ⟨1, "web", "alice/site", "/tmp/site", "main", "echo hi"⟩
      ∧ (deploy_service (initDB [⟨1, "web", "alice/site", "/tmp/site", "main", "echo hi"⟩]) 1 0).2
        = some (initDB [⟨1, "web", "alice/site", "/tmp/site", "main", "echo hi"⟩]).nextId)
    ∧ (findService (initDB [⟨1, "web", "alice/site", "/tmp/site", "main", "echo hi"⟩]) 2 = none
      ∧ deploy_service (initDB [⟨1, "web", "alice/site", "/tmp/site", "main", "echo hi"⟩]) 2 0
        = (initDB [⟨1, "web", "alice/site", "/tmp/site", "main", "echo hi"⟩], none)) :=
  ⟨⟨by decide,
    (pushbot_c6.1 (initDB [⟨1, "web", "alice/site", "/tmp/site", "main", "echo hi"⟩]) 1 0
      ⟨1, "web", "alice/site", "/tmp/site", "main", "echo hi"⟩ (by decide)).1⟩,
   ⟨by decide,
    pushbot_c6.2.1 (initDB [⟨1, "web", "alice/site", "/tmp/site", "main", "echo hi"⟩]) 2 0
      (by decide)⟩⟩

/-- C9 witness: a store with one `success` row and one `running` row. -/
theorem pushbot_c9_witness :
    ((⟨1, 1, .success, 0, some 1, some 0, "", "", none, none, none, "manual"⟩ : Row).status
        = DStatus.success
      ∨ (⟨1, 1, .success, 0, some 1, some 0, "", "", none, none, none, "manual"⟩ : Row).status
        = DStatus.failed)
    ∧ (clear_deployments ⟨[],
        [⟨1, 1, .success, 0, some 1, some 0, "", "", none, none, none, "manual"⟩,
         ⟨2, 1, .running, 0, none, none, "", "", none, none, none, "webhook"⟩], 3⟩).1.rows.count
        ⟨1, 1, .success, 0, some 1, some 0, "", "", none, none, none, "manual"⟩ = 0
    ∧ ((⟨2, 1, .running, 0, none, none, "", "", none, none, none, "webhook"⟩ : Row).status
        = DStatus.queued
      ∨ (⟨2, 1, .running, 0, none, none, "", "", none, none, none, "webhook"⟩ : Row).status
        = DStatus.running)
    ∧ (clear_deployments ⟨[],
        [⟨1, 1, .success, 0, some 1, some 0, "", "", none, none, none, "manual"⟩,
         ⟨2, 1, .running, 0, none, none, "", "", none, none, none, "webhook"⟩], 3⟩).1.rows.count
        ⟨2, 1, .running, 0, none, none, "", "", none, none, none, "webhook"⟩
      = (⟨[],
        [⟨1, 1, .success, 0, some 1, some 0, "", "", none, none, none, "manual"⟩,
         ⟨2, 1, .running, 0, none, none, "", "", none, none, none, "webhook"⟩], 3⟩ : DB).rows.count
        ⟨2, 1, .running, 0, none, none, "", "", none, none, none, "webhook"⟩ :=
  ⟨Or.inl rfl, (pushbot_c9 _).2.1 _ (Or.inl rfl), Or.inr rfl,
   (pushbot_c9 _).2.2.1 _ (Or.inr rfl)⟩

/-! ## Claim C7: branch derivation -/

/-- A list with no occurrence of `pat` is left unchanged by the removal
scan, whatever the fuel. -/
theorem pyRemoveGo_of_noOcc {pat : List Char} :
    ∀ (fuel : Nat) (l : List Char), hasOcc pat l = false → pyRemoveGo pat fuel l = l := by
  intro fuel
  induction fuel with
  | zero => intro l _; rfl
  | succ n ih =>
    intro l h
    cases l with
    | nil => rfl
    | cons c rest =>
      rw [hasOcc, Bool.or_eq_false_iff] at h
      rw [pyRemoveGo, if_neg (by simp [h.1])]
      rw [ih rest h.2]

/-- Removing every occurrence from `pat ++ s` when `s` itself contains no
occurrence of `pat` deletes exactly the leading copy of `pat`. -/
theorem pyRemoveAll_append_of_noOcc {pat s : List Char} (hpat : pat ≠ [])
    (h : hasOcc pat s = false) : pyRemoveAll pat (pat ++ s) = s := by
  cases hp : pat with
  | nil => exact absurd hp hpat
  | cons p0 pt =>
    subst hp
    have hlen : ((p0 :: pt) ++ s).length = ((pt ++ s).length) + 1 := by simp
    show pyRemoveGo (p0 :: pt) ((p0 :: pt) ++ s).length ((p0 :: pt) ++ s) = s
    rw [hlen]
    show pyRemoveGo (p0 :: pt) ((pt ++ s).length + 1) (p0 :: (pt ++ s)) = s
    rw [pyRemoveGo, if_pos ?hpre]
    case hpre =>
      exact List.isPrefixOf_iff_prefix.mpr (List.prefix_append (p0 :: pt) s)
    show pyRemoveGo (p0 :: pt) (pt ++ s).length (List.drop (p0 :: pt).length ((p0 :: pt) ++ s)) = s
    rw [List.drop_left]
    exact pyRemoveGo_of_noOcc _ s h

/-- C7 counterexample: for `ref = "refs/heads/refs/heads/main"` the handler
derives the branch `"main"` — `str.replace` deleted both copies — while the
claim predicts `"refs/heads/main"`, the `ref` with only its leading prefix
stripped. -/
theorem pushbot_c7_counterexample :
    handleRef (some ("refs/heads/refs/heads/main".toList))
      = RefOutcome.accept ("main".toList)
    ∧ handleRef (some ("refs/heads/refs/heads/main".toList))
      ≠ RefOutcome.accept (("refs/heads/refs/heads/main".toList).drop refsHeads.length) := by
  constructor
  · decide
  · decide

/-- C7 (amended): the interpreter derives the branch by deleting every
occurrence of `refs/heads/` from `ref` (left to right); when the remainder
after the leading prefix contains no further occurrence this coincides with
stripping only the leading prefix; and a payload whose `ref` is missing or
does not begin with `refs/heads/` is rejected. -/
theorem pushbot_c7 :
    (∀ ref : List Char, refsHeads.isPrefixOf ref = false → handleRef (some ref) = .reject)
    ∧ handleRef none = .reject
    ∧ (∀ s : List Char, hasOcc refsHeads s = false → s ≠ [] →
        handleRef (some (refsHeads ++ s)) = .accept s)
    ∧ (∀ s : List Char, hasOcc refsHeads s = false →
        deriveBranch (refsHeads ++ s) = some s) := by
  have hderive : ∀ s : List Char, hasOcc refsHeads s = false →
      deriveBranch (refsHeads ++ s) = some s := by
    intro s h
    rw [deriveBranch, if_pos (List.isPrefixOf_iff_prefix.mpr (List.prefix_append _ s))]
    rw [pyRemoveAll_append_of_noOcc (by decide) h]
  refine ⟨?_, rfl, ?_, hderive⟩
  · intro ref h
    by_cases href : ref = []
    · simp [handleRef, href]
    · simp [handleRef, href, deriveBranch, h]
  · intro s h hs
    have hne : refsHeads ++ s ≠ [] := by simp [refsHeads]
    simp only [handleRef, if_neg hne, hderive s h]
    simp [hs]

/-- C7 witness: rejection of a tag ref and acceptance of
`refs/heads/main`. -/
theorem pushbot_c7_witness :
    (refsHeads.isPrefixOf ("refs/tags/v1".toList) = false
      ∧ handleRef (some ("refs/tags/v1".toList)) = .reject)
    ∧ (hasOcc refsHeads ("main".toList) = false ∧ "main".toList ≠ ([] : List Char)
      ∧ handleRef (some (refsHeads ++ "main".toList)) = .accept ("main".toList)) :=
  ⟨⟨by decide, pushbot_c7.1 _ (by decide)⟩,
   ⟨by decide, by decide, pushbot_c7.2.2.1 _ (by decide) (by decide)⟩⟩

/-! ## Claim C3: the terminal transition -/

/-- Rows of a unique-id list are determined by their id. -/
theorem eq_of_id_of_nodup {l : List Row} {x y : Row}
    (hn : (l.map Row.id).Nodup) (hx : x ∈ l) (hy : y ∈ l) (h : x.id = y.id) : x = y := by
  have h1 := find?_id_of_nodup hn hx
  have h2 := find?_id_of_nodup hn hy
  rw [h] at h1
  rw [h1] at h2
  exact (Option.some.injEq _ _).mp h2

/-- After a completion the completed row reads back as its finalized
version: the queue hand-off touches a queued row, never the one that just
finished. -/
theorem completeStep_reads_finalized (db : DB) (did : Nat) (exit : Int) (fin : Nat)
    (outT errT : String) (r : Row) (hInv : SysInv db)
    (hfind : findRow db did = some r) (hst : r.status = .running) :
    findRow (completeStep db did exit fin outT errT).1 did
      = some (finalizeRow exit fin outT errT r) := by
  have hrmem : r ∈ db.rows := List.mem_of_find?_eq_some hfind
  have hrid : r.id = did := by simpa using List.find?_some hfind
  subst hrid
  obtain ⟨hnd, hbd, hrun, hterm, htrig⟩ := hInv
  obtain ⟨l1, l2, hdec, h1, h2⟩ := decomp_of_nodup hnd hrmem
  have hupd : (finalizeInDb db r.id exit fin outT errT).rows
      = l1 ++ finalizeRow exit fin outT errT r :: l2 := by
    show db.rows.map _ = _
    rw [hdec]
    exact updId_decomp _ h1 h2
  have hfrid : (finalizeRow exit fin outT errT r).id = r.id := rfl
  have hids1 : (finalizeInDb db r.id exit fin outT errT).rows.map Row.id
      = db.rows.map Row.id := by
    rw [hupd, hdec, List.map_append, List.map_append, List.map_cons, List.map_cons, hfrid]
  have hnd1 : ((finalizeInDb db r.id exit fin outT errT).rows.map Row.id).Nodup := by
    rw [hids1]; exact hnd
  have hfr_mem : finalizeRow exit fin outT errT r
      ∈ (finalizeInDb db r.id exit fin outT errT).rows := by
    rw [hupd]
    exact List.mem_append.mpr (Or.inr (List.mem_cons_self _ _))
  have hfind1 : findRow (finalizeInDb db r.id exit fin outT errT) r.id
      = some (finalizeRow exit fin outT errT r) :=
    find?_id_of_nodup hnd1 hfr_mem
  rcases hpick : pickNextQueued (finalizeInDb db r.id exit fin outT errT) r.service_id
    with _ | q
  · simp only [completeStep, hfind, if_pos hst, processQueue, hpick]
    exact hfind1
  · rcases hsvc : findService (finalizeInDb db r.id exit fin outT errT) r.service_id
      with _ | s
    · simp only [completeStep, hfind, if_pos hst, processQueue, hpick, hsvc]
      exact hfind1
    · simp only [completeStep, hfind, if_pos hst, processQueue, hpick, hsvc]
      obtain ⟨hq_mem, hq_pred⟩ := pickNextQueued_mem hpick
      obtain ⟨hq_sid, hq_st⟩ := queuedFor_spec hq_pred
      obtain ⟨m1, m2, hdec2, g1, g2⟩ := decomp_of_nodup hnd1 hq_mem
      have hupd2 : (promoteRow (finalizeInDb db r.id exit fin outT errT) q.id).rows
          = m1 ++ { q with status := DStatus.running } :: m2 := by
        show (finalizeInDb db r.id exit fin outT errT).rows.map _ = _
        rw [hdec2]
        exact updId_decomp _ g1 g2
      have hids2 : (promoteRow (finalizeInDb db r.id exit fin outT errT) q.id).rows.map Row.id
          = (finalizeInDb db r.id exit fin outT errT).rows.map Row.id := by
        rw [hupd2, hdec2, List.map_append, List.map_append, List.map_cons, List.map_cons]
      have hnd2 : ((promoteRow (finalizeInDb db r.id exit fin outT errT) q.id).rows.map
          Row.id).Nodup := by
        rw [hids2]; exact hnd1
      have hfrq : finalizeRow exit fin outT errT r ≠ q := by
        intro hcontra
        have hft := finalizeRow_terminal exit fin outT errT r
        rw [hcontra, hq_st] at hft
        simp [DStatus.terminal] at hft
      have hfr_mem2 : finalizeRow exit fin outT errT r
          ∈ (promoteRow (finalizeInDb db r.id exit fin outT errT) q.id).rows := by
        have hfr1 := hfr_mem
        rw [hdec2] at hfr1
        rw [hupd2]
        rcases List.mem_append.mp hfr1 with hm1 | hm2
        · exact List.mem_append.mpr (Or.inl hm1)
        · rcases List.mem_cons.mp hm2 with heq | hm3
          · exact absurd heq hfrq
          · exact List.mem_append.mpr (Or.inr (List.mem_cons_of_mem _ hm3))
      exact find?_id_of_nodup hnd2 hfr_mem2

/-- C3: a runner completion with exit code `n` finalizes its Deployment to
`success` when `n = 0` and `failed` otherwise and sets both `finished_at`
and `exit_code`; consequently every terminal Deployment row of a reachable
store has `finished_at ≠ null` and `exit_code ≠ null`. -/
theorem pushbot_c3 :
    (∀ (db : DB) (did : Nat) (exit : Int) (fin : Nat) (outT errT : String) (r : Row),
      SysInv db → findRow db did = some r → r.status = .running →
      findRow (completeStep db did exit fin outT errT).1 did
        = some (finalizeRow exit fin outT errT r)
      ∧ (finalizeRow exit fin outT errT r).status
          = (if exit = 0 then DStatus.success else DStatus.failed)
      ∧ (finalizeRow exit fin outT errT r).finished_at = some fin
      ∧ (finalizeRow exit fin outT errT r).exit_code = some exit)
    ∧ (∀ (svcs : List ServiceRow) (evs : List Event) (r : Row),
        r ∈ (runEvents (initDB svcs) evs).rows →
        r.status = .success ∨ r.status = .failed →
        r.finished_at.isSome = true ∧ r.exit_code.isSome = true) := by
  constructor
  · intro db did exit fin outT errT r hInv hfind hst
    exact ⟨completeStep_reads_finalized db did exit fin outT errT r hInv hfind hst,
      rfl, rfl, rfl⟩
  · intro svcs evs r hr hterm
    exact (sysInv_runEvents svcs evs).2.2.2.1 r hr ((terminal_iff r.status).mpr hterm)

/-- C3 witness: one enqueue then its completion with exit code 0 on a
concrete store. -/
theorem pushbot_c3_witness :
    (SysInv (runEvents (initDB [⟨1, "web", "alice/site", "/tmp/site", "main", "echo hi"⟩])
        [Event.enqueue ⟨1, "web", "alice/site", "/tmp/site", "main", "echo hi"⟩
          .webhook none none none 4])
      ∧ findRow (runEvents (initDB [⟨1, "web", "alice/site", "/tmp/site", "main", "echo hi"⟩])
          [Event.enqueue ⟨1, "web", "alice/site", "/tmp/site", "main", "echo hi"⟩
            .webhook none none none 4]) 1
        = some ⟨1, 1, .running, 4, none, none, "", "", none, none, some "main", "webhook"⟩
      ∧ (⟨1, 1, .running, 4, none, none, "", "", none, none, some "main", "webhook"⟩ : Row).status
        = DStatus.running
      ∧ findRow (completeStep (runEvents
            (initDB [⟨1, "web", "alice/site", "/tmp/site", "main", "echo hi"⟩])
            [Event.enqueue ⟨1, "web", "alice/site", "/tmp/site", "main", "echo hi"⟩
              .webhook none none none 4]) 1 0 9 "out" "err").1 1
        = some (finalizeRow 0 9 "out" "err"
            ⟨1, 1, .running, 4, none, none, "", "", none, none, some "main", "webhook"⟩))
    ∧ ((⟨1, 1, .success, 4, some 9, some 0, "o", "e", none, none, some "main", "webhook"⟩ : Row)
          ∈ (runEvents (initDB [⟨1, "web", "alice/site", "/tmp/site", "main", "echo hi"⟩])
            [Event.enqueue ⟨1, "web", "alice/site", "/tmp/site", "main", "echo hi"⟩
              .webhook none none none 4,
             Event.complete 1 0 9 "o" "e"]).rows
      ∧ (⟨1, 1, .success, 4, some 9, some 0, "o", "e", none, none, some "main",
          "webhook"⟩ : Row).finished_at.isSome = true
      ∧ (⟨1, 1, .success, 4, some 9, some 0, "o", "e", none, none, some "main",
          "webhook"⟩ : Row).exit_code.isSome = true) := by
  refine ⟨⟨sysInv_runEvents _ _, by decide, rfl, ?_⟩, by decide, ?_, ?_⟩
  · exact (pushbot_c3.1 _ 1 0 9 "out" "err"
      ⟨1, 1, .running, 4, none, none, "", "", none, none, some "main", "webhook"⟩
      (sysInv_runEvents _ _) (by decide) rfl).1
  · exact (pushbot_c3.2 [⟨1, "web", "alice/site", "/tmp/site", "main", "echo hi"⟩]
      [Event.enqueue ⟨1, "web", "alice/site", "/tmp/site", "main", "echo hi"⟩
        .webhook none none none 4, Event.complete 1 0 9 "o" "e"]
      ⟨1, 1, .success, 4, some 9, some 0, "o", "e", none, none, some "main", "webhook"⟩
      (by decide) (Or.inl rfl)).1
  · exact (pushbot_c3.2 [⟨1, "web", "alice/site", "/tmp/site", "main", "echo hi"⟩]
      [Event.enqueue ⟨1, "web", "alice/site", "/tmp/site", "main", "echo hi"⟩
        .webhook none none none 4, Event.complete 1 0 9 "o" "e"]
      ⟨1, 1, .success, 4, some 9, some 0, "o", "e", none, none, some "main", "webhook"⟩
      (by decide) (Or.inl rfl)).2

/-! ## Claim C2: FIFO per service -/

/-- A store with no running row of the service produces no completions. -/
theorem completionsTrace_of_no_running {db : DB} {sid : Nat}
    (h : db.rows.countP (runningFor sid) = 0) :
    ∀ k, completionsTrace db sid k = [] := by
  intro k
  cases k with
  | zero => rfl
  | succ n =>
    have hfn : findRunning db sid = none :=
      List.find?_eq_none.mpr (List.countP_eq_zero.mp h)
    simp [completionsTrace, hfn]

/-- Finalizing a running row does not change the queued rows of any
service. -/
theorem filter_queued_finalize {db : DB} {r : Row} (exit : Int) (fin : Nat)
    (outT errT : String) (hnd : (db.rows.map Row.id).Nodup) (hr : r ∈ db.rows)
    (hst : r.status = .running) (sid : Nat) :
    (finalizeInDb db r.id exit fin outT errT).rows.filter (queuedFor sid)
      = db.rows.filter (queuedFor sid) := by
  obtain ⟨l1, l2, hdec, h1, h2⟩ := decomp_of_nodup hnd hr
  have hupd : (finalizeInDb db r.id exit fin outT errT).rows
      = l1 ++ finalizeRow exit fin outT errT r :: l2 := by
    show db.rows.map _ = _
    rw [hdec]
    exact updId_decomp _ h1 h2
  have hqr : queuedFor sid r = false := by simp [queuedFor, hst]
  rw [hupd, hdec, List.filter_append, List.filter_append, List.filter_cons, List.filter_cons,
    hqr, finalizeRow_not_queued]
  simp

/-- The completion loop promotes the queued rows of the service in table
order, which under the sortedness assumption is ascending `started_at`
order. -/
theorem trace_eq : ∀ (k : Nat) (db : DB) (sid : Nat) (r : Row),
    SysInv db →
    (findService db sid).isSome = true →
    findRunning db sid = some r →
    List.Sorted (fun a b : Row => a.started_at ≤ b.started_at)
      (db.rows.filter (queuedFor sid)) →
    completionsTrace db sid k = ((db.rows.filter (queuedFor sid)).take k).map Row.id := by
  intro k
  induction k with
  | zero => intro db sid r _ _ _ _; rfl
  | succ n ih =>
    intro db sid r hInv hsvc hrunr hsort
    have hrp : runningFor sid r = true := List.find?_some hrunr
    have hrmem : r ∈ db.rows := List.mem_of_find?_eq_some hrunr
    obtain ⟨hrsid, hrst⟩ : r.service_id = sid ∧ r.status = DStatus.running := by
      simpa [runningFor] using hrp
    subst hrsid
    have hfindrow : findRow db r.id = some r := find?_id_of_nodup hInv.1 hrmem
    have hcs0 : completeStep db r.id 0 0 "" ""
        = processQueue (finalizeInDb db r.id 0 0 "" "") r.service_id := by
      simp only [completeStep, hfindrow, if_pos hrst]
    have hfq1 : (finalizeInDb db r.id 0 0 "" "").rows.filter (queuedFor r.service_id)
        = db.rows.filter (queuedFor r.service_id) :=
      filter_queued_finalize 0 0 "" "" hInv.1 hrmem hrst r.service_id
    have hsort1 : List.Sorted (fun a b : Row => a.started_at ≤ b.started_at)
        ((finalizeInDb db r.id 0 0 "" "").rows.filter (queuedFor r.service_id)) := by
      rw [hfq1]; exact hsort
    have hsortsorted : List.insertionSort (fun a b : Row => a.started_at ≤ b.started_at)
        ((finalizeInDb db r.id 0 0 "" "").rows.filter (queuedFor r.service_id))
        = (finalizeInDb db r.id 0 0 "" "").rows.filter (queuedFor r.service_id) :=
      List.Sorted.insertionSort_eq hsort1
    have hzero : (finalizeInDb db r.id 0 0 "" "").rows.countP (runningFor r.service_id)
        = 0 := by
      obtain ⟨hnd, hbd, hrun, hterm, htrig⟩ := hInv
      obtain ⟨l1, l2, hdec, h1, h2⟩ := decomp_of_nodup hnd hrmem
      have hupd : (finalizeInDb db r.id 0 0 "" "").rows
          = l1 ++ finalizeRow 0 0 "" "" r :: l2 := by
        show db.rows.map _ = _
        rw [hdec]
        exact updId_decomp _ h1 h2
      have hc1 := hrun r.service_id
      rw [hdec, countP_decomp] at hc1
      have hrr : runningFor r.service_id r = true := by simp [runningFor, hrst]
      rw [hrr] at hc1
      simp only [if_true] at hc1
      rw [hupd, countP_decomp, finalizeRow_not_running]
      simp only [Bool.false_eq_true, if_false]
      omega
    rcases hpick : pickNextQueued (finalizeInDb db r.id 0 0 "" "") r.service_id with _ | q
    · -- queue empty: nothing promoted and nothing left running
      have hfq_nil : db.rows.filter (queuedFor r.service_id) = [] := by
        unfold pickNextQueued at hpick
        rw [hsortsorted] at hpick
        rw [← hfq1]
        exact List.head?_eq_none_iff.mp hpick
      have htail : completionsTrace (finalizeInDb db r.id 0 0 "" "") r.service_id n = [] :=
        completionsTrace_of_no_running hzero n
      simp only [completionsTrace, hrunr, hcs0, processQueue, hpick, hfq_nil]
      simpa using htail
    · -- q is promoted
      rcases hsome : findService (finalizeInDb db r.id 0 0 "" "") r.service_id with _ | s
      · rw [show findService (finalizeInDb db r.id 0 0 "" "") r.service_id
            = findService db r.service_id from rfl] at hsome
        rw [hsome] at hsvc
        cases hsvc
      · have hcs : (completeStep db r.id 0 0 "" "").1
            = promoteRow (finalizeInDb db r.id 0 0 "" "") q.id := by
          rw [hcs0]
          simp only [processQueue, hpick, hsome]
        have hcs2 : (completeStep db r.id 0 0 "" "").2 = some q.id := by
          rw [hcs0]
          simp only [processQueue, hpick, hsome]
        have hInv1 : SysInv (promoteRow (finalizeInDb db r.id 0 0 "" "") q.id) := by
          rw [← hcs]
          exact sysInv_complete db r.id 0 0 "" "" hInv
        obtain ⟨hq_mem, hq_pred⟩ := pickNextQueued_mem hpick
        obtain ⟨hq_sid, hq_st⟩ := queuedFor_spec hq_pred
        -- the filter is q followed by its tail
        have hhead : ((finalizeInDb db r.id 0 0 "" "").rows.filter
            (queuedFor r.service_id)).head? = some q := by
          unfold pickNextQueued at hpick
          rw [hsortsorted] at hpick
          exact hpick
        obtain ⟨qt, hqt⟩ : ∃ qt, (finalizeInDb db r.id 0 0 "" "").rows.filter
            (queuedFor r.service_id) = q :: qt := by
          rcases hl : (finalizeInDb db r.id 0 0 "" "").rows.filter (queuedFor r.service_id)
            with _ | ⟨y, ys⟩
          · rw [hl] at hhead; cases hhead
          · rw [hl] at hhead
            rw [List.head?_cons, Option.some.injEq] at hhead
            exact ⟨ys, by rw [hhead]⟩
        -- decompose at q to compute the promoted store
        have hnd1 : ((finalizeInDb db r.id 0 0 "" "").rows.map Row.id).Nodup := by
          obtain ⟨hnd, hbd, _, _, _⟩ := hInv
          obtain ⟨l1, l2, hdec, h1, h2⟩ := decomp_of_nodup hnd hrmem
          have hupd : (finalizeInDb db r.id 0 0 "" "").rows
              = l1 ++ finalizeRow 0 0 "" "" r :: l2 := by
            show db.rows.map _ = _
            rw [hdec]
            exact updId_decomp _ h1 h2
          have heq : (finalizeInDb db r.id 0 0 "" "").rows.map Row.id
              = db.rows.map Row.id := by
            rw [hupd, hdec, List.map_append, List.map_append, List.map_cons, List.map_cons]
            rfl
          rw [heq]
          exact hnd
        obtain ⟨m1, m2, hdec2, g1, g2⟩ := decomp_of_nodup hnd1 hq_mem
        have hupd2 : (promoteRow (finalizeInDb db r.id 0 0 "" "") q.id).rows
            = m1 ++ { q with status := DStatus.running } :: m2 := by
          show (finalizeInDb db r.id 0 0 "" "").rows.map _ = _
          rw [hdec2]
          exact updId_decomp _ g1 g2
        -- the queued rows of the promoted store are the tail
        have hsplit : m1.filter (queuedFor r.service_id) ++ q ::
            m2.filter (queuedFor r.service_id) = q :: qt := by
          rw [← hqt, hdec2, List.filter_append, List.filter_cons, hq_pred]
          simp
        have hfm1 : m1.filter (queuedFor r.service_id) = [] := by
          rcases hf : m1.filter (queuedFor r.service_id) with _ | ⟨y, ys⟩
          · rfl
          · exfalso
            have hy_m1 : y ∈ m1 := (List.mem_filter.mp (hf ▸ List.mem_cons_self y ys)).1
            rw [hf] at hsplit
            have hyq : y = q := by
              have := congrArg List.head? hsplit
              simpa using this
            exact g1 y hy_m1 (by rw [hyq])
        have hqt_eq : m2.filter (queuedFor r.service_id) = qt := by
          rw [hfm1] at hsplit
          simpa using hsplit
        have hfq2 : (promoteRow (finalizeInDb db r.id 0 0 "" "") q.id).rows.filter
            (queuedFor r.service_id) = qt := by
          rw [hupd2, List.filter_append, List.filter_cons, hfm1]
          have hpq : queuedFor r.service_id { q with status := DStatus.running }
              = false := by
            simp [queuedFor]
          rw [hpq, hqt_eq]
          simp
        -- the promoted row is the unique running row of the new store
        have hpq_mem : ({ q with status := DStatus.running } : Row)
            ∈ (promoteRow (finalizeInDb db r.id 0 0 "" "") q.id).rows := by
          rw [hupd2]
          exact List.mem_append.mpr (Or.inr (List.mem_cons_self _ _))
        have hpq_run : runningFor r.service_id { q with status := DStatus.running }
            = true := by
          simp [runningFor, hq_sid]
        have hrun2 : findRunning (promoteRow (finalizeInDb db r.id 0 0 "" "") q.id)
            r.service_id = some { q with status := DStatus.running } :=
          find?_of_countP_le_one (hInv1.2.2.1 r.service_id) hpq_mem hpq_run
        have hsvc2 : (findService (promoteRow (finalizeInDb db r.id 0 0 "" "") q.id)
            r.service_id).isSome = true := hsvc
        have hsort2 : List.Sorted (fun a b : Row => a.started_at ≤ b.started_at)
            ((promoteRow (finalizeInDb db r.id 0 0 "" "") q.id).rows.filter
              (queuedFor r.service_id)) := by
          rw [hfq2]
          have hs1 := hsort1
          rw [hqt] at hs1
          exact hs1.tail
        have htail := ih (promoteRow (finalizeInDb db r.id 0 0 "" "") q.id) r.service_id
          { q with status := DStatus.running } hInv1 hsvc2 hrun2 hsort2
        -- assemble
        have hfq_db : db.rows.filter (queuedFor r.service_id) = q :: qt := by
          rw [← hfq1]
          exact hqt
        simp only [completionsTrace, hrunr, hcs, hcs2, Option.toList_some, hfq_db]
        rw [htail, hfq2]
        simp


/-- The enqueue phase: while a running row exists, every further enqueue
appends a queued row carrying its `now` as `started_at`. -/
theorem enq_phase : ∀ (args : List EnqArg) (db : DB) (svc : ServiceRow),
    (findRunning db svc.id).isSome = true →
    ∃ newRows : List Row,
      (runEvents db (enqEvents svc args)).rows = db.rows ++ newRows
      ∧ newRows.map Row.started_at = args.map EnqArg.now
      ∧ (∀ x ∈ newRows, queuedFor svc.id x = true)
      ∧ (runEvents db (enqEvents svc args)).services = db.services
      ∧ (runEvents db (enqEvents svc args)).nextId = db.nextId + args.length := by
  intro args
  induction args with
  | nil =>
    intro db svc _
    exact ⟨[], by simp [runEvents, enqEvents], rfl, by simp, rfl, rfl⟩
  | cons a rest ih =>
    intro db svc hrun
    obtain ⟨rr, hrr⟩ := Option.isSome_iff_exists.mp hrun
    have hstep : runEvents db (enqEvents svc (a :: rest))
        = runEvents (step db (.enqueue svc a.trigger a.commit_sha a.commit_message
            a.branch a.now)) (enqEvents svc rest) := rfl
    set db1 := step db (.enqueue svc a.trigger a.commit_sha a.commit_message a.branch a.now)
      with hdb1
    have hrows1 : db1.rows = db.rows
        ++ [newRow db svc a.commit_sha a.commit_message a.branch
            (some a.trigger.str) a.now] := rfl
    have hrun1 : (findRunning db1 svc.id).isSome = true := by
      show (db1.rows.find? (runningFor svc.id)).isSome = true
      rw [hrows1, List.find?_append]
      show ((findRunning db svc.id).or _).isSome = true
      rw [hrr]
      rfl
    obtain ⟨nrs, h1, h2, h3, h4, h5⟩ := ih db1 svc hrun1
    have hstat : (newRow db svc a.commit_sha a.commit_message a.branch
        (some a.trigger.str) a.now).status = DStatus.queued := by
      simp [newRow, hrun]
    refine ⟨newRow db svc a.commit_sha a.commit_message a.branch
        (some a.trigger.str) a.now :: nrs, ?_, ?_, ?_, ?_, ?_⟩
    · rw [hstep, h1, hrows1, List.append_assoc]
      rfl
    · rw [List.map_cons, h2]
      rfl
    · intro x hx
      rcases List.mem_cons.mp hx with rfl | hx2
      · have hsid : (newRow db svc a.commit_sha a.commit_message a.branch
            (some a.trigger.str) a.now).service_id = svc.id := rfl
        simp [queuedFor, hstat, hsid]
      · exact h3 x hx2
    · rw [hstep, h4]
      rfl
    · rw [hstep, h5]
      show db.nextId + 1 + rest.length = db.nextId + (rest.length + 1)
      omega

/-- C2: for any sequence of enqueues to a single service followed by runner
completions, the promoted ids are the queued rows in table order, and the
table order of the queued rows carries ascending `started_at`; hence the
`queued→running` transitions happen in ascending `started_at` order (FIFO
per service). -/
theorem pushbot_c2 (svc : ServiceRow) (args : List EnqArg) (k : Nat)
    (hsort : List.Sorted (· ≤ ·) (args.map EnqArg.now)) :
    completionsTrace (runEvents (initDB [svc]) (enqEvents svc args)) svc.id k
      = (((runEvents (initDB [svc]) (enqEvents svc args)).rows.filter
          (queuedFor svc.id)).take k).map Row.id
    ∧ List.Sorted (· ≤ ·)
        (((runEvents (initDB [svc]) (enqEvents svc args)).rows.filter
          (queuedFor svc.id)).map Row.started_at) := by
  cases args with
  | nil =>
    constructor
    · have hempty : (runEvents (initDB [svc]) (enqEvents svc [])).rows = [] := rfl
      rw [completionsTrace_of_no_running (by rw [hempty]; rfl) k, hempty]
      simp
    · show List.Sorted _ (([] : List Row).map Row.started_at)
      simp
  | cons a rest =>
    have hstep : runEvents (initDB [svc]) (enqEvents svc (a :: rest))
        = runEvents (step (initDB [svc]) (.enqueue svc a.trigger a.commit_sha
            a.commit_message a.branch a.now)) (enqEvents svc rest) := rfl
    set db1 := step (initDB [svc]) (.enqueue svc a.trigger a.commit_sha
      a.commit_message a.branch a.now) with hdb1
    have hnone : findRunning (initDB [svc]) svc.id = none := rfl
    have hnr0 : (newRow (initDB [svc]) svc a.commit_sha a.commit_message a.branch
        (some a.trigger.str) a.now).status = DStatus.running := by
      simp [newRow, hnone]
    have hrows1 : db1.rows = [newRow (initDB [svc]) svc a.commit_sha a.commit_message
        a.branch (some a.trigger.str) a.now] := rfl
    have hrun1 : findRunning db1 svc.id
        = some (newRow (initDB [svc]) svc a.commit_sha a.commit_message a.branch
            (some a.trigger.str) a.now) := by
      show db1.rows.find? _ = _
      rw [hrows1]
      have hsid0 : (newRow (initDB [svc]) svc a.commit_sha a.commit_message a.branch
          (some a.trigger.str) a.now).service_id = svc.id := rfl
      exact List.find?_cons_of_pos _ (by simp [runningFor, hnr0, hsid0])
    obtain ⟨nrs, h1, h2, h3, h4, h5⟩ := enq_phase rest db1 svc (by rw [hrun1]; rfl)
    have hfq : (runEvents (initDB [svc]) (enqEvents svc (a :: rest))).rows.filter
        (queuedFor svc.id) = nrs := by
      rw [hstep, h1, hrows1, List.filter_append, List.filter_cons]
      have hq0 : queuedFor svc.id (newRow (initDB [svc]) svc a.commit_sha a.commit_message
          a.branch (some a.trigger.str) a.now) = false := by
        simp [queuedFor, hnr0]
      rw [hq0]
      simp only [List.filter_nil, if_false]
      rw [List.filter_eq_self.mpr h3]
      rfl
    have hsorted_nrs : List.Sorted (fun x y : Row => x.started_at ≤ y.started_at) nrs := by
      have hts : List.Sorted (· ≤ ·) (nrs.map Row.started_at) := by
        rw [h2]
        exact hsort.tail
      exact List.pairwise_map.mp hts
    constructor
    · have hrm : (runEvents (initDB [svc]) (enqEvents svc (a :: rest))).rows
          = newRow (initDB [svc]) svc a.commit_sha a.commit_message a.branch
              (some a.trigger.str) a.now :: nrs := by
        rw [hstep, h1, hrows1]
        rfl
      have hrun0 : findRunning (runEvents (initDB [svc]) (enqEvents svc (a :: rest)))
          svc.id = some (newRow (initDB [svc]) svc a.commit_sha a.commit_message a.branch
            (some a.trigger.str) a.now) := by
        show (runEvents (initDB [svc]) (enqEvents svc (a :: rest))).rows.find? _ = _
        have hsid0 : (newRow (initDB [svc]) svc a.commit_sha a.commit_message a.branch
            (some a.trigger.str) a.now).service_id = svc.id := rfl
        rw [hrm]
        exact List.find?_cons_of_pos _ (by simp [runningFor, hnr0, hsid0])
      have hsvc0 : (findService (runEvents (initDB [svc]) (enqEvents svc (a :: rest)))
          svc.id).isSome = true := by
        show ((runEvents (initDB [svc]) (enqEvents svc (a :: rest))).services.find?
          _).isSome = true
        rw [hstep, h4]
        show (([svc] : List ServiceRow).find? (fun s => s.id = svc.id)).isSome = true
        rw [List.find?_cons_of_pos _ (by simp)]
        rfl
      have := trace_eq k (runEvents (initDB [svc]) (enqEvents svc (a :: rest))) svc.id
        (newRow (initDB [svc]) svc a.commit_sha a.commit_message a.branch
          (some a.trigger.str) a.now)
        (sysInv_runEvents [svc] (enqEvents svc (a :: rest))) hsvc0 hrun0
        (by rw [hfq]; exact hsorted_nrs)
      exact this
    · rw [hfq, h2]
      exact hsort.tail

/-- C2 witness: three enqueues at times 1, 2, 3 and a full run of
completions; rows 2 and 3 are promoted in that order. -/
theorem pushbot_c2_witness :
    List.Sorted (· ≤ ·) (([⟨Trigger.webhook, none, none, none, 1⟩,
        ⟨Trigger.manual, none, none, none, 2⟩,
        ⟨Trigger.webhook, none, none, none, 3⟩] : List EnqArg).map EnqArg.now)
    ∧ (completionsTrace (runEvents (initDB [⟨1, "web", "a/s", "/tmp", "main", "echo hi"⟩])
          (enqEvents ⟨1, "web", "a/s", "/tmp", "main", "echo hi"⟩
            [⟨Trigger.webhook, none, none, none, 1⟩, ⟨Trigger.manual, none, none, none, 2⟩,
             ⟨Trigger.webhook, none, none, none, 3⟩])) 1 3
        = (((runEvents (initDB [⟨1, "web", "a/s", "/tmp", "main", "echo hi"⟩])
            (enqEvents ⟨1, "web", "a/s", "/tmp", "main", "echo hi"⟩
              [⟨Trigger.webhook, none, none, none, 1⟩, ⟨Trigger.manual, none, none, none, 2⟩,
               ⟨Trigger.webhook, none, none, none, 3⟩])).rows.filter
            (queuedFor 1)).take 3).map Row.id
      ∧ List.Sorted (· ≤ ·)
          (((runEvents (initDB [⟨1, "web", "a/s", "/tmp", "main", "echo hi"⟩])
            (enqEvents ⟨1, "web", "a/s", "/tmp", "main", "echo hi"⟩
              [⟨Trigger.webhook, none, none, none, 1⟩, ⟨Trigger.manual, none, none, none, 2⟩,
               ⟨Trigger.webhook, none, none, none, 3⟩])).rows.filter
            (queuedFor 1)).map Row.started_at))
    ∧ completionsTrace (runEvents (initDB [⟨1, "web", "a/s", "/tmp", "main", "echo hi"⟩])
          (enqEvents ⟨1, "web", "a/s", "/tmp", "main", "echo hi"⟩
            [⟨Trigger.webhook, none, none, none, 1⟩, ⟨Trigger.manual, none, none, none, 2⟩,
             ⟨Trigger.webhook, none, none, none, 3⟩])) 1 3 = [2, 3] :=
  ⟨by decide,
   pushbot_c2 ⟨1, "web", "a/s", "/tmp", "main", "echo hi"⟩
     [⟨Trigger.webhook, none, none, none, 1⟩, ⟨Trigger.manual, none, none, none, 2⟩,
      ⟨Trigger.webhook, none, none, none, 3⟩] 3 (by decide),
   by decide⟩

/-! ## Claim C8: decimal rendering, prefix parsing and blob splitting -/

/-- Every rendered character is a decimal digit. -/
theorem digitChar_isDigit (n : Nat) : (digitChar n).isDigit = true := by
  rcases n with _ | _ | _ | _ | _ | _ | _ | _ | _ | m <;>
    first
      | decide
      | exact (by decide : ('9' : Char).isDigit = true)

/-- Reading a rendered digit back. -/
theorem digitVal_digitChar {m : Nat} (h : m < 10) : digitVal (digitChar m) = m := by
  interval_cases m <;> decide

/-- All characters produced by the renderer are digits. -/
theorem natDigitsGo_isDigit : ∀ (fuel n : Nat), ∀ c ∈ natDigitsGo fuel n, c.isDigit = true := by
  intro fuel
  induction fuel with
  | zero =>
    intro n c hc
    rw [natDigitsGo] at hc
    simp only [List.mem_cons, List.not_mem_nil, or_false] at hc
    rw [hc]
    exact digitChar_isDigit _
  | succ f ih =>
    intro n c hc
    rw [natDigitsGo] at hc
    by_cases h10 : n < 10
    · rw [if_pos h10] at hc
      simp only [List.mem_cons, List.not_mem_nil, or_false] at hc
      rw [hc]
      exact digitChar_isDigit _
    · rw [if_neg h10] at hc
      rcases List.mem_append.mp hc with h1 | h2
      · exact ih (n / 10) c h1
      · simp only [List.mem_cons, List.not_mem_nil, or_false] at h2
        rw [h2]
        exact digitChar_isDigit _

/-- The renderer never yields the empty list. -/
theorem natDigitsGo_ne_nil (fuel n : Nat) : natDigitsGo fuel n ≠ [] := by
  cases fuel with
  | zero => simp [natDigitsGo]
  | succ f =>
    rw [natDigitsGo]
    by_cases h10 : n < 10
    · simp [h10]
    · simp [h10]

/-- Appending one digit multiplies the value by ten. -/
theorem digitsToNat_concat (ds : List Char) (c : Char) :
    digitsToNat (ds ++ [c]) = digitsToNat ds * 10 + digitVal c := by
  rw [digitsToNat, List.foldl_append]
  rfl

/-- The rendering of `n` reads back as `n` whenever the fuel covers `n`. -/
theorem digitsToNat_natDigitsGo : ∀ (fuel n : Nat), n ≤ fuel →
    digitsToNat (natDigitsGo fuel n) = n := by
  intro fuel
  induction fuel with
  | zero =>
    intro n hn
    have h0 : n = 0 := Nat.le_zero.mp hn
    subst h0
    rw [natDigitsGo]
    show digitsToNat [digitChar (0 % 10)] = 0
    have h1 : digitsToNat [digitChar (0 % 10)] = digitVal (digitChar (0 % 10)) := by
      simp [digitsToNat]
    rw [h1, digitVal_digitChar (by omega)]
  | succ f ih =>
    intro n hn
    rw [natDigitsGo]
    by_cases h10 : n < 10
    · rw [if_pos h10]
      show digitsToNat [digitChar n] = n
      have h1 : digitsToNat [digitChar n] = digitVal (digitChar n) := by
        simp [digitsToNat]
      rw [h1, digitVal_digitChar h10]
    · rw [if_neg h10]
      rw [digitsToNat_concat]
      rw [ih (n / 10) (by omega)]
      rw [digitVal_digitChar (Nat.mod_lt _ (by omega))]
      omega

/-- `natDigits n` reads back as `n`. -/
theorem digitsToNat_natDigits (n : Nat) : digitsToNat (natDigits n) = n :=
  digitsToNat_natDigitsGo n n (Nat.le_refl n)

/-- `takeWhile` swallows a block of satisfying characters and stops at the
first failing one. -/
theorem takeWhile_block {p : Char → Bool} :
    ∀ (ds : List Char), (∀ c ∈ ds, p c = true) → ∀ (x : Char) (t : List Char), p x = false →
      List.takeWhile p (ds ++ x :: t) = ds := by
  intro ds
  induction ds with
  | nil =>
    intro _ x t hx
    simp [List.takeWhile_cons, hx]
  | cons d ds ih =>
    intro h x t hx
    have hd : p d = true := h d (List.mem_cons_self _ _)
    rw [List.cons_append, List.takeWhile_cons, hd]
    simp only [if_true]
    rw [ih (fun c hc => h c (List.mem_cons_of_mem _ hc)) x t hx]

/-- The replay parser recovers the seconds written by the formatter,
whatever follows the bracketed prefix. -/
theorem parseTsLine_fmt (k : Nat) (line : List Char) :
    parseTsLine ('[' :: (natDigits k ++ (']' :: ' ' :: line))) = some k := by
  have hdig : ∀ c ∈ natDigits k, c.isDigit = true := natDigitsGo_isDigit k k
  have hbr : (']' : Char).isDigit = false := by decide
  rw [parseTsLine]
  rw [if_pos rfl]
  rw [takeWhile_block (natDigits k) hdig ']' (' ' :: line) hbr]
  rw [if_neg (show ¬(natDigits k = []) from natDigitsGo_ne_nil k k)]
  rw [List.drop_left]
  rw [List.head?_cons]
  rw [if_pos rfl]
  rw [digitsToNat_natDigits]

/-- A character of a digit block is not a newline. -/
theorem ne_nl_of_isDigit {c : Char} (h : c.isDigit = true) : c ≠ '\n' := by
  intro hc
  rw [hc] at h
  exact absurd h (by decide)

/-- Splitting after a newline-free piece peels it off. -/
theorem splitNl_append_nl : ∀ (piece : List Char), '\n' ∉ piece → ∀ (rest : List Char),
    splitNl (piece ++ '\n' :: rest) = piece :: splitNl rest := by
  intro piece
  induction piece with
  | nil =>
    intro _ rest
    simp [splitNl]
  | cons c cs ih =>
    intro h rest
    have hc : ¬(c = '\n') := fun hx => h (hx ▸ List.mem_cons_self _ _)
    have hcs : '\n' ∉ cs := fun hx => h (List.mem_cons_of_mem _ hx)
    rw [List.cons_append, splitNl]
    rw [if_neg hc]
    rw [ih hcs rest]

/-- Splitting the concatenation of newline-terminated pieces recovers the
pieces followed by one empty trailer. -/
theorem splitNl_flatten : ∀ (pieces : List (List Char)), (∀ p ∈ pieces, '\n' ∉ p) →
    splitNl ((pieces.map (fun p => p ++ ['\n'])).flatten) = pieces ++ [[]] := by
  intro pieces
  induction pieces with
  | nil => intro _; rfl
  | cons p ps ih =>
    intro h
    rw [List.map_cons, List.flatten_cons, List.append_assoc]
    show splitNl (p ++ '\n' :: (ps.map (fun p => p ++ ['\n'])).flatten) = _
    rw [splitNl_append_nl p (h p (List.mem_cons_self _ _))]
    rw [ih (fun x hx => h x (List.mem_cons_of_mem _ hx))]
    rfl

/-- One step of the capture filter. -/
theorem keptEntries_cons (x : LogEntry) (xs : List LogEntry) :
    keptEntries (x :: xs) = if discardLine x.line then keptEntries xs
      else ⟨x.ts, fmtLine x.ts x.line, x.stream⟩ :: keptEntries xs := by
  rw [keptEntries, List.filter_cons]
  by_cases h : discardLine x.line
  · simp [h, keptEntries]
  · simp [h, keptEntries]

/-- Feeding raw reads through `_add_log` appends exactly the formatted
non-blank entries to the ring and their per-stream lines to the buffers. -/
theorem ingest_fields : ∀ (xs : List LogEntry) (st : RunnerState),
    ingest st xs = ⟨st.stdout_buffer ++ ((keptEntries xs).filter
        (fun e => e.stream = Stream.stdout)).map LogEntry.line,
      st.stderr_buffer ++ ((keptEntries xs).filter
        (fun e => e.stream = Stream.stderr)).map LogEntry.line,
      st.ordered_logs ++ keptEntries xs⟩ := by
  intro xs
  induction xs with
  | nil =>
    intro st
    cases st
    simp [ingest, keptEntries]
  | cons x xs ih =>
    intro st
    rw [show ingest st (x :: xs) = ingest (addLog st x.ts x.line x.stream) xs from rfl]
    rw [ih, keptEntries_cons]
    by_cases h : discardLine x.line
    · rw [if_pos h]
      rw [show addLog st x.ts x.line x.stream = st from by rw [addLog, if_pos h]]
    · rw [if_neg h]
      cases hs : x.stream <;>
        simp [addLog, h, hs, List.filter_cons, List.append_assoc]

/-- The ring inherits sortedness from the (monotone) clock of the raw
reads. -/
theorem kept_sorted (xs : List LogEntry) (hts : List.Sorted entryLe xs) :
    List.Sorted entryLe (keptEntries xs) := by
  rw [keptEntries]
  apply List.pairwise_map.mpr
  exact (List.Pairwise.sublist (List.filter_sublist xs) hts).imp (fun h => h)

/-- With a sorted ring, the persisted blobs are the concatenations of the
per-stream formatted lines in ring order. -/
theorem finalizeBlobs_ingest (xs : List LogEntry)
    (hk : List.Sorted entryLe (keptEntries xs)) :
    finalizeBlobs (ingest initRunner xs)
      = ((((keptEntries xs).filter (fun e => e.stream = Stream.stdout)).map
            LogEntry.line).flatten,
         (((keptEntries xs).filter (fun e => e.stream = Stream.stderr)).map
            LogEntry.line).flatten) := by
  rw [show initRunner = (⟨[], [], []⟩ : RunnerState) from rfl]
  rw [ingest_fields]
  simp only [List.nil_append]
  by_cases hL : keptEntries xs = []
  · rw [finalizeBlobs, if_pos (by simp [hL])]
  · rw [finalizeBlobs, if_neg (by simp [hL])]
    simp only []
    rw [show List.insertionSort entryLe
        ((⟨((keptEntries xs).filter (fun e => e.stream = Stream.stdout)).map LogEntry.line,
          ((keptEntries xs).filter (fun e => e.stream = Stream.stderr)).map LogEntry.line,
          keptEntries xs⟩ : RunnerState)).ordered_logs
        = List.insertionSort entryLe (keptEntries xs) from rfl]
    rw [List.Sorted.insertionSort_eq hk]

/-- Every ring entry produced from newline-terminated raw reads is a
formatted line: a bracketed second count, a space, a newline-free body and
the trailing newline. -/
theorem kept_fmtOk (xs : List LogEntry) (hraw : ∀ x ∈ xs, rawOk x.line) :
    ∀ e ∈ keptEntries xs, ∃ c, '\n' ∉ c
      ∧ e.line = '[' :: (natDigits (e.ts / uSec) ++ (']' :: ' ' :: (c ++ ['\n']))) := by
  intro e he
  rw [keptEntries] at he
  obtain ⟨x, hx, hex⟩ := List.mem_map.mp he
  obtain ⟨hxmem, _⟩ := List.mem_filter.mp hx
  obtain ⟨hne, hlast, hnin⟩ := hraw x hxmem
  have hgl : x.line.getLast hne = '\n' := by
    have h2 := List.getLast?_eq_getLast x.line hne
    rw [hlast] at h2
    exact (Option.some.injEq _ _).mp h2.symm
  have hsplit : x.line = x.line.dropLast ++ ['\n'] := by
    have h1 := List.dropLast_append_getLast hne
    rw [hgl] at h1
    exact h1.symm
  subst hex
  refine ⟨x.line.dropLast, hnin, ?_⟩
  show fmtLine x.ts x.line = '[' :: (natDigits (x.ts / uSec) ++ (']' :: ' ' ::
    (x.line.dropLast ++ ['\n'])))
  rw [fmtLine, if_neg hne, ← hsplit]

/-- The terminal replay of a blob made of formatted lines recovers exactly
those lines, tagged with the stream and the second-precision key. -/
theorem replayEntries_spec (s : Stream) : ∀ (E : List LogEntry),
    (∀ e ∈ E, ∃ c, '\n' ∉ c
      ∧ e.line = '[' :: (natDigits (e.ts / uSec) ++ (']' :: ' ' :: (c ++ ['\n'])))) →
    replayEntries ((E.map LogEntry.line).flatten) s
      = E.map (fun e => ⟨e.ts / uSec, e.line, s⟩) := by
  intro E
  induction E with
  | nil => intro _; rfl
  | cons e E ih =>
    intro h
    obtain ⟨c, hc, hline⟩ := h e (List.mem_cons_self _ _)
    have hline' : e.line = ('[' :: (natDigits (e.ts / uSec) ++ (']' :: ' ' :: c))) ++ ['\n'] := by
      rw [hline]
      simp [List.append_assoc]
    have hpe_nl : '\n' ∉ ('[' :: (natDigits (e.ts / uSec) ++ (']' :: ' ' :: c))) := by
      intro hmem
      rcases List.mem_cons.mp hmem with h1 | h2
      · exact absurd h1 (by decide)
      · rcases List.mem_append.mp h2 with h3 | h4
        · have := natDigitsGo_isDigit (e.ts / uSec) (e.ts / uSec) '\n' h3
          exact absurd this (by decide)
        · rcases List.mem_cons.mp h4 with h5 | h6
          · exact absurd h5 (by decide)
          · rcases List.mem_cons.mp h6 with h7 | h8
            · exact absurd h7 (by decide)
            · exact hc h8
    have hkeep : (('[' :: (natDigits (e.ts / uSec) ++ (']' :: ' ' :: c))).all pyIsSpace)
        = false := by
      rw [List.all_cons]
      rw [show pyIsSpace '[' = false from by decide]
      rfl
    have hlast_pe : ('[' :: (natDigits (e.ts / uSec) ++ (']' :: ' ' :: c))).getLast?
        ≠ some '\n' := by
      intro hsome
      have hne : ('[' :: (natDigits (e.ts / uSec) ++ (']' :: ' ' :: c))) ≠ [] := by simp
      rw [List.getLast?_eq_getLast _ hne, Option.some.injEq] at hsome
      exact hpe_nl (hsome ▸ List.getLast_mem hne)
    have hwith : withNl ('[' :: (natDigits (e.ts / uSec) ++ (']' :: ' ' :: c)))
        = ('[' :: (natDigits (e.ts / uSec) ++ (']' :: ' ' :: c))) ++ ['\n'] := by
      rw [withNl, if_neg hlast_pe]
    have hkey : replayKey ('[' :: (natDigits (e.ts / uSec) ++ (']' :: ' ' :: c)))
        = e.ts / uSec := by
      rw [replayKey, parseTsLine_fmt]
      rfl
    rw [List.map_cons, List.flatten_cons, hline', List.append_assoc]
    show replayEntries (('[' :: (natDigits (e.ts / uSec) ++ (']' :: ' ' :: c)))
      ++ '\n' :: (E.map LogEntry.line).flatten) s = _
    rw [replayEntries]
    rw [splitNl_append_nl _ hpe_nl]
    rw [List.filter_cons]
    rw [show (!(('[' :: (natDigits (e.ts / uSec) ++ (']' :: ' ' :: c))).all pyIsSpace))
        = true from by rw [hkeep]; rfl]
    simp only [if_true]
    rw [List.map_cons, hkey, hwith, ← hline']
    have htail := ih (fun e' he' => h e' (List.mem_cons_of_mem _ he'))
    rw [replayEntries] at htail
    rw [htail, List.map_cons]

/-! ## Claim C8: the stable merge -/

/-- Merging from an empty left stream. -/
theorem merge_nil_left (bs : List LogEntry) : specStableMerge [] bs = bs := by
  rw [specStableMerge]

/-- Merging from an empty right stream. -/
theorem merge_nil_right (as : List LogEntry) : specStableMerge as [] = as := by
  cases as <;> simp [specStableMerge]

/-- The head comparison of the merge. -/
theorem merge_cons_cons (a b : LogEntry) (as bs : List LogEntry) :
    specStableMerge (a :: as) (b :: bs)
      = if a.ts ≤ b.ts then a :: specStableMerge as (b :: bs)
        else b :: specStableMerge (a :: as) bs := by
  rw [specStableMerge]

/-- The merge permutes the concatenation of the two streams. -/
theorem merge_perm : ∀ (as bs : List LogEntry), (specStableMerge as bs).Perm (as ++ bs) := by
  intro as
  induction as with
  | nil =>
    intro bs
    rw [merge_nil_left, List.nil_append]
  | cons a as iha =>
    intro bs
    induction bs with
    | nil =>
      rw [merge_nil_right, List.append_nil]
    | cons b bs ihb =>
      rw [merge_cons_cons]
      by_cases hab : a.ts ≤ b.ts
      · rw [if_pos hab]
        exact (iha (b :: bs)).cons a
      · rw [if_neg hab]
        exact (ihb.cons b).trans List.perm_middle.symm

/-- Inserting below every element lands at the front. -/
theorem orderedInsert_front {a : LogEntry} {l : List LogEntry}
    (h : ∀ x ∈ l, entryLe a x) : List.orderedInsert entryLe a l = a :: l := by
  cases l with
  | nil => rfl
  | cons b t => exact List.orderedInsert_of_le entryLe t (h b (List.mem_cons_self _ _))

/-- A strictly smaller right head is emitted before the whole left
stream. -/
theorem merge_cons_right_of_lt {b : LogEntry} {bs : List LogEntry} :
    ∀ as : List LogEntry, (∀ x ∈ as, b.ts < x.ts) →
      specStableMerge as (b :: bs) = b :: specStableMerge as bs := by
  intro as h
  cases as with
  | nil => rw [merge_nil_left, merge_nil_left]
  | cons a as =>
    rw [merge_cons_cons, if_neg (Nat.not_le.mpr (h a (List.mem_cons_self _ _)))]

/-- Inserting the next element of the sorted left stream into a merge. -/
theorem orderedInsert_merge (a : LogEntry) (as : List LogEntry)
    (has : List.Sorted entryLe (a :: as)) :
    ∀ bs, List.Sorted entryLe bs →
      List.orderedInsert entryLe a (specStableMerge as bs)
        = specStableMerge (a :: as) bs := by
  intro bs
  induction bs with
  | nil =>
    intro _
    rw [merge_nil_right, merge_nil_right]
    exact orderedInsert_front (List.rel_of_sorted_cons has)
  | cons b bs ihb =>
    intro hbs
    by_cases hab : a.ts ≤ b.ts
    · have hfront : ∀ x ∈ specStableMerge as (b :: bs), entryLe a x := by
        intro x hx
        have hx2 : x ∈ as ++ b :: bs := (merge_perm as (b :: bs)).subset hx
        rcases List.mem_append.mp hx2 with h1 | h2
        · exact List.rel_of_sorted_cons has x h1
        · rcases List.mem_cons.mp h2 with rfl | h3
          · exact hab
          · exact Nat.le_trans hab (List.rel_of_sorted_cons hbs x h3)
      rw [orderedInsert_front hfront, merge_cons_cons, if_pos hab]
    · have hba : b.ts < a.ts := Nat.lt_of_not_le hab
      have hlt : ∀ x ∈ as, b.ts < x.ts := fun x hx =>
        Nat.lt_of_lt_of_le hba (List.rel_of_sorted_cons has x hx)
      have hoi : List.orderedInsert entryLe a (b :: specStableMerge as bs)
          = b :: List.orderedInsert entryLe a (specStableMerge as bs) := by
        rw [List.orderedInsert, if_neg (show ¬entryLe a b from hab)]
      have hm : specStableMerge (a :: as) (b :: bs)
          = b :: specStableMerge (a :: as) bs := by
        rw [merge_cons_cons, if_neg hab]
      rw [merge_cons_right_of_lt as hlt, hoi, ihb hbs.of_cons, hm]

/-- The code's concatenate-then-stable-sort equals the specification's
stable merge on two sorted streams. -/
theorem insertionSort_append_merge : ∀ (as bs : List LogEntry),
    List.Sorted entryLe as → List.Sorted entryLe bs →
    List.insertionSort entryLe (as ++ bs) = specStableMerge as bs := by
  intro as
  induction as with
  | nil =>
    intro bs _ hbs
    rw [List.nil_append, List.Sorted.insertionSort_eq hbs, merge_nil_left]
  | cons a as ih =>
    intro bs has hbs
    rw [List.cons_append, List.insertionSort, ih bs has.of_cons hbs]
    exact orderedInsert_merge a as has bs hbs

/-- A filter rejecting every element empties the list. -/
theorem filter_none {α : Type _} {p : α → Bool} :
    ∀ l : List α, (∀ x ∈ l, p x = false) → l.filter p = [] := by
  intro l
  induction l with
  | nil => intro _; rfl
  | cons a t ih =>
    intro h
    rw [List.filter_cons, h a (List.mem_cons_self _ _)]
    exact ih (fun x hx => h x (List.mem_cons_of_mem _ hx))

/-- Filtering the merge for the left stream recovers it in order. -/
theorem merge_filter_left (p : LogEntry → Bool) : ∀ (as bs : List LogEntry),
    (∀ x ∈ as, p x = true) → (∀ x ∈ bs, p x = false) →
    (specStableMerge as bs).filter p = as := by
  intro as
  induction as with
  | nil =>
    intro bs _ hbs
    rw [merge_nil_left]
    exact filter_none bs hbs
  | cons a as iha =>
    intro bs
    induction bs with
    | nil =>
      intro has _
      rw [merge_nil_right, List.filter_eq_self.mpr has]
    | cons b bs ihb =>
      intro has hbs
      rw [merge_cons_cons]
      by_cases hab : a.ts ≤ b.ts
      · rw [if_pos hab, List.filter_cons, has a (List.mem_cons_self _ _)]
        simp only [if_true]
        rw [iha (b :: bs) (fun x hx => has x (List.mem_cons_of_mem _ hx)) hbs]
      · rw [if_neg hab, List.filter_cons, hbs b (List.mem_cons_self _ _)]
        simp only [Bool.false_eq_true, if_false]
        exact ihb has (fun x hx => hbs x (List.mem_cons_of_mem _ hx))

/-- Filtering the merge for the right stream recovers it in order. -/
theorem merge_filter_right (p : LogEntry → Bool) : ∀ (as bs : List LogEntry),
    (∀ x ∈ as, p x = false) → (∀ x ∈ bs, p x = true) →
    (specStableMerge as bs).filter p = bs := by
  intro as
  induction as with
  | nil =>
    intro bs _ hbs
    rw [merge_nil_left, List.filter_eq_self.mpr hbs]
  | cons a as iha =>
    intro bs
    induction bs with
    | nil =>
      intro has _
      rw [merge_nil_right]
      exact filter_none _ has
    | cons b bs ihb =>
      intro has hbs
      rw [merge_cons_cons]
      by_cases hab : a.ts ≤ b.ts
      · rw [if_pos hab, List.filter_cons, has a (List.mem_cons_self _ _)]
        simp only [Bool.false_eq_true, if_false]
        exact iha (b :: bs) (fun x hx => has x (List.mem_cons_of_mem _ hx)) hbs
      · rw [if_neg hab, List.filter_cons, hbs b (List.mem_cons_self _ _)]
        simp only [if_true]
        rw [ihb has (fun x hx => hbs x (List.mem_cons_of_mem _ hx))]

/-- `filterMap` of a guarded projection is filter-then-map. -/
theorem filterMap_guard {α β : Type _} (p : α → Bool) (f : α → β) :
    ∀ l : List α, l.filterMap (fun e => if p e then some (f e) else none)
      = (l.filter p).map f := by
  intro l
  induction l with
  | nil => rfl
  | cons a t ih =>
    rw [List.filterMap_cons, List.filter_cons]
    by_cases h : p a
    · rw [if_pos h, if_pos h, List.map_cons, ih]
    · rw [if_neg h, if_neg h, ih]

/-- `filterMap` of a total projection is `map`. -/
theorem filterMap_somes {α β : Type _} (f : α → β) :
    ∀ l : List α, l.filterMap (fun e => some (f e)) = l.map f := by
  intro l
  induction l with
  | nil => rfl
  | cons a t ih => rw [List.filterMap_cons, List.map_cons, ih]

/-- The payloads of the line events of a merge result. -/
theorem filterMap_text_map : ∀ M : List LogEntry,
    (M.map (fun e => SSE.lineEv e.stream e.line)).filterMap sseText
      = M.map LogEntry.line := by
  intro M
  induction M with
  | nil => rfl
  | cons e M ih =>
    rw [List.map_cons, List.filterMap_cons, List.map_cons]
    rw [show sseText (SSE.lineEv e.stream e.line) = some e.line from rfl, ih]

/-- The payloads of one stream's line events. -/
theorem filterMap_textOf_map (s : Stream) : ∀ M : List LogEntry,
    (M.map (fun e => SSE.lineEv e.stream e.line)).filterMap (sseTextOf s)
      = (M.filter (fun e => e.stream = s)).map LogEntry.line := by
  intro M
  induction M with
  | nil => rfl
  | cons e M ih =>
    rw [List.map_cons, List.filterMap_cons, List.filter_cons]
    rw [show sseTextOf s (SSE.lineEv e.stream e.line)
        = if e.stream = s then some e.line else none from rfl]
    by_cases h : e.stream = s
    · rw [if_pos h, if_pos (by simp [h]), List.map_cons, ih]
    · rw [if_neg h, if_neg (by simp [h]), ih]

/-- C8: for a terminal Deployment captured from newline-terminated reads
under a monotone clock, the SSE replay is exactly the stable merge by
(second-precision, prefix-parsed) timestamp of the two persisted per-stream
line sequences, hence a permutation of the recorded ring lines with each
per-stream subsequence in production order; one final status event closes
the stream, and a line whose prefix cannot be parsed gets the minimal
timestamp. -/
theorem pushbot_c8 (xs : List LogEntry) (status : DStatus) (exit : Option Int)
    (hraw : ∀ x ∈ xs, rawOk x.line)
    (hts : List.Sorted entryLe xs) :
    replay (finalizeBlobs (ingest initRunner xs)).1 (finalizeBlobs (ingest initRunner xs)).2
        status exit
      = (specStableMerge
          (((keptEntries xs).filter (fun e => e.stream = Stream.stdout)).map toRep)
          (((keptEntries xs).filter (fun e => e.stream = Stream.stderr)).map toRep)).map
            (fun e => SSE.lineEv e.stream e.line)
        ++ [SSE.statusEv status exit]
    ∧ ((replay (finalizeBlobs (ingest initRunner xs)).1
          (finalizeBlobs (ingest initRunner xs)).2 status exit).filterMap sseText).Perm
        ((ingest initRunner xs).ordered_logs.map LogEntry.line)
    ∧ (replay (finalizeBlobs (ingest initRunner xs)).1
          (finalizeBlobs (ingest initRunner xs)).2 status exit).filterMap
            (sseTextOf Stream.stdout)
        = ((keptEntries xs).filter (fun e => e.stream = Stream.stdout)).map LogEntry.line
    ∧ (replay (finalizeBlobs (ingest initRunner xs)).1
          (finalizeBlobs (ingest initRunner xs)).2 status exit).filterMap
            (sseTextOf Stream.stderr)
        = ((keptEntries xs).filter (fun e => e.stream = Stream.stderr)).map LogEntry.line
    ∧ (replay (finalizeBlobs (ingest initRunner xs)).1
          (finalizeBlobs (ingest initRunner xs)).2 status exit).countP isStatusEv = 1
    ∧ (replay (finalizeBlobs (ingest initRunner xs)).1
          (finalizeBlobs (ingest initRunner xs)).2 status exit).getLast?
        = some (SSE.statusEv status exit)
    ∧ (∀ l : List Char, parseTsLine l = none → replayKey l = epochTs)
    ∧ (∀ l : List Char, epochTs ≤ replayKey l) := by
  have hk : List.Sorted entryLe (keptEntries xs) := kept_sorted xs hts
  have hfmt := kept_fmtOk xs hraw
  have hblob := finalizeBlobs_ingest xs hk
  have hb1 : (finalizeBlobs (ingest initRunner xs)).1
      = (((keptEntries xs).filter (fun e => e.stream = Stream.stdout)).map
          LogEntry.line).flatten := by rw [hblob]
  have hb2 : (finalizeBlobs (ingest initRunner xs)).2
      = (((keptEntries xs).filter (fun e => e.stream = Stream.stderr)).map
          LogEntry.line).flatten := by rw [hblob]
  have hAfmt : ∀ e ∈ (keptEntries xs).filter (fun e => e.stream = Stream.stdout),
      ∃ c, '\n' ∉ c
        ∧ e.line = '[' :: (natDigits (e.ts / uSec) ++ (']' :: ' ' :: (c ++ ['\n']))) :=
    fun e he => hfmt e (List.mem_filter.mp he).1
  have hBfmt : ∀ e ∈ (keptEntries xs).filter (fun e => e.stream = Stream.stderr),
      ∃ c, '\n' ∉ c
        ∧ e.line = '[' :: (natDigits (e.ts / uSec) ++ (']' :: ' ' :: (c ++ ['\n']))) :=
    fun e he => hfmt e (List.mem_filter.mp he).1
  have hAstream : ∀ e ∈ (keptEntries xs).filter (fun e => e.stream = Stream.stdout),
      e.stream = Stream.stdout := by
    intro e he
    have := (List.mem_filter.mp he).2
    simpa using this
  have hBstream : ∀ e ∈ (keptEntries xs).filter (fun e => e.stream = Stream.stderr),
      e.stream = Stream.stderr := by
    intro e he
    have := (List.mem_filter.mp he).2
    simpa using this
  have hre1 : replayEntries (finalizeBlobs (ingest initRunner xs)).1 Stream.stdout
      = ((keptEntries xs).filter (fun e => e.stream = Stream.stdout)).map toRep := by
    rw [hb1, replayEntries_spec Stream.stdout _ hAfmt]
    exact List.map_congr_left (fun e he => by rw [toRep, ← hAstream e he])
  have hre2 : replayEntries (finalizeBlobs (ingest initRunner xs)).2 Stream.stderr
      = ((keptEntries xs).filter (fun e => e.stream = Stream.stderr)).map toRep := by
    rw [hb2, replayEntries_spec Stream.stderr _ hBfmt]
    exact List.map_congr_left (fun e he => by rw [toRep, ← hBstream e he])
  have hsortedA : List.Sorted entryLe
      (((keptEntries xs).filter (fun e => e.stream = Stream.stdout)).map toRep) := by
    apply List.pairwise_map.mpr
    refine (List.Pairwise.sublist (List.filter_sublist _) hk).imp ?_
    intro a b h
    exact Nat.div_le_div_right h
  have hsortedB : List.Sorted entryLe
      (((keptEntries xs).filter (fun e => e.stream = Stream.stderr)).map toRep) := by
    apply List.pairwise_map.mpr
    refine (List.Pairwise.sublist (List.filter_sublist _) hk).imp ?_
    intro a b h
    exact Nat.div_le_div_right h
  have hmain : replay (finalizeBlobs (ingest initRunner xs)).1
      (finalizeBlobs (ingest initRunner xs)).2 status exit
      = (specStableMerge
          (((keptEntries xs).filter (fun e => e.stream = Stream.stdout)).map toRep)
          (((keptEntries xs).filter (fun e => e.stream = Stream.stderr)).map toRep)).map
            (fun e => SSE.lineEv e.stream e.line)
        ++ [SSE.statusEv status exit] := by
    rw [replay, hre1, hre2, insertionSort_append_merge _ _ hsortedA hsortedB]
  have hL : (ingest initRunner xs).ordered_logs = keptEntries xs := by
    rw [show initRunner = (⟨[], [], []⟩ : RunnerState) from rfl, ingest_fields]
    exact List.nil_append _
  have hlineRep : ∀ E : List LogEntry, (E.map toRep).map LogEntry.line
      = E.map LogEntry.line := by
    intro E
    rw [List.map_map]
    exact List.map_congr_left (fun e _ => rfl)
  refine ⟨hmain, ?_, ?_, ?_, ?_, ?_, ?_, ?_⟩
  · -- permutation of the recorded ring lines
    rw [hmain, hL, List.filterMap_append, filterMap_text_map]
    rw [show List.filterMap sseText [SSE.statusEv status exit] = [] from rfl,
      List.append_nil]
    refine ((merge_perm _ _).map LogEntry.line).trans ?_
    rw [List.map_append, hlineRep, hlineRep, ← List.map_append]
    refine List.Perm.map LogEntry.line ?_
    have hcongr : (keptEntries xs).filter (fun e => e.stream = Stream.stderr)
        = (keptEntries xs).filter (fun e => !(decide (e.stream = Stream.stdout))) := by
      apply List.filter_congr
      intro e _
      cases e.stream <;> rfl
    rw [hcongr]
    exact List.filter_append_perm _ _
  · -- stdout subsequence in production order
    rw [hmain, List.filterMap_append, filterMap_textOf_map]
    rw [show List.filterMap (sseTextOf Stream.stdout) [SSE.statusEv status exit]
        = [] from rfl, List.append_nil]
    rw [merge_filter_left _ _ _ ?hA ?hB]
    case hA =>
      intro x hx
      obtain ⟨e, he, rfl⟩ := List.mem_map.mp hx
      simp [toRep, hAstream e he]
    case hB =>
      intro x hx
      obtain ⟨e, he, rfl⟩ := List.mem_map.mp hx
      simp [toRep, hBstream e he]
    exact hlineRep _
  · -- stderr subsequence in production order
    rw [hmain, List.filterMap_append, filterMap_textOf_map]
    rw [show List.filterMap (sseTextOf Stream.stderr) [SSE.statusEv status exit]
        = [] from rfl, List.append_nil]
    rw [merge_filter_right _ _ _ ?hA2 ?hB2]
    case hA2 =>
      intro x hx
      obtain ⟨e, he, rfl⟩ := List.mem_map.mp hx
      simp [toRep, hAstream e he]
    case hB2 =>
      intro x hx
      obtain ⟨e, he, rfl⟩ := List.mem_map.mp hx
      simp [toRep, hBstream e he]
    exact hlineRep _
  · -- exactly one status event
    rw [hmain, List.countP_append]
    have h0 : ((specStableMerge
        (((keptEntries xs).filter (fun e => e.stream = Stream.stdout)).map toRep)
        (((keptEntries xs).filter (fun e => e.stream = Stream.stderr)).map toRep)).map
          (fun e => SSE.lineEv e.stream e.line)).countP isStatusEv = 0 := by
      rw [List.countP_eq_zero]
      intro y hy
      obtain ⟨e, _, rfl⟩ := List.mem_map.mp hy
      simp [isStatusEv]
    rw [h0]
    rfl
  · -- the status event closes the stream
    rw [hmain]
    exact List.getLast?_concat _
  · intro l h
    rw [replayKey, h]
    rfl
  · intro l
    exact Nat.zero_le _

/-- C8 witness: three newline-terminated reads on alternating streams with
increasing timestamps. -/
theorem pushbot_c8_witness :
    (∀ x ∈ ([⟨2000000, "a\n".toList, .stdout⟩, ⟨2500000, "e\n".toList, .stderr⟩,
        ⟨3000000, "b\n".toList, .stdout⟩] : List LogEntry), rawOk x.line)
    ∧ List.Sorted entryLe ([⟨2000000, "a\n".toList, .stdout⟩,
        ⟨2500000, "e\n".toList, .stderr⟩, ⟨3000000, "b\n".toList, .stdout⟩] : List LogEntry)
    ∧ (replay (finalizeBlobs (ingest initRunner
          [⟨2000000, "a\n".toList, .stdout⟩, ⟨2500000, "e\n".toList, .stderr⟩,
           ⟨3000000, "b\n".toList, .stdout⟩])).1
        (finalizeBlobs (ingest initRunner
          [⟨2000000, "a\n".toList, .stdout⟩, ⟨2500000, "e\n".toList, .stderr⟩,
           ⟨3000000, "b\n".toList, .stdout⟩])).2
        DStatus.success (some 0)).countP isStatusEv = 1
    ∧ (replay (finalizeBlobs (ingest initRunner
          [⟨2000000, "a\n".toList, .stdout⟩, ⟨2500000, "e\n".toList, .stderr⟩,
           ⟨3000000, "b\n".toList, .stdout⟩])).1
        (finalizeBlobs (ingest initRunner
          [⟨2000000, "a\n".toList, .stdout⟩, ⟨2500000, "e\n".toList, .stderr⟩,
           ⟨3000000, "b\n".toList, .stdout⟩])).2
        DStatus.success (some 0)).getLast? = some (SSE.statusEv DStatus.success (some 0)) :=
  ⟨by decide, by decide,
   (pushbot_c8 [⟨2000000, "a\n".toList, .stdout⟩, ⟨2500000, "e\n".toList, .stderr⟩,
      ⟨3000000, "b\n".toList, .stdout⟩] DStatus.success (some 0)
      (by decide) (by decide)).2.2.2.2.1,
   (pushbot_c8 [⟨2000000, "a\n".toList, .stdout⟩, ⟨2500000, "e\n".toList, .stderr⟩,
      ⟨3000000, "b\n".toList, .stdout⟩] DStatus.success (some 0)
      (by decide) (by decide)).2.2.2.2.2.1⟩

end Pushbot
